import Mathlib

/-!
Verification of the bencode codec, metainfo model, magnet parser, compact
peer-list decoder and block scheduler of the `codecrafters-bittorrent-go`
client, as a shallow embedding in Lean 4.

Go byte strings are modelled as `List Nat` (each element a byte value);
Go `int` is modelled as `Int` (64-bit range checks appear where the Go
library enforces them, e.g. `strconv.Atoi`); fallible Go functions return
`Except GoErr`; a Go runtime panic (nil dereference, slice out of range)
is modelled as the distinguished error `GoErr.panic`, kept apart from
ordinary `error` return values, which are modelled as `GoErr.errMsg`.
-/

/-- Runtime outcome of a fallible Go computation: an ordinary `error`
return value, or a runtime panic (which no Go caller can receive as an
`error`). -/
inductive GoErr where
  | errMsg (s : String)
  | panic (s : String)
deriving DecidableEq, Repr

/-- ASCII bytes of a Lean string literal (used only for ASCII literals,
where Go's byte strings and Lean's code points coincide). -/
def bytes (s : String) : List Nat :=
  s.data.map Char.toNat

/-- ASCII decimal digit test: `unicode.IsDigit` restricted to a single
byte, which holds exactly for bytes `'0'..'9'` (no byte in `0x80..0xFF`
is in Unicode category Nd). -/
def isDigitB (c : Nat) : Bool :=
  48 ≤ c && c ≤ 57

/-- Numeric value of a decimal digit list, most significant first
(the accumulator loop of `strconv.Atoi`). -/
def digitsVal (ds : List Nat) : Nat :=
  ds.foldl (fun a d => a * 10 + (d - 48)) 0

/-- Model of Go `strconv.Atoi` on a byte string: optional `+`/`-` sign,
then one or more ASCII decimal digits; leading zeros are accepted, and
`-0` parses to `0`.  Values outside the 64-bit `int` range yield the
`ErrRange` error. -/
def goAtoi (s : List Nat) : Except GoErr Int :=
  match s with
  | [] => .error (.errMsg "invalid syntax")
  | c :: rest =>
    let neg : Bool := c = 45
    let ds : List Nat := if c = 45 || c = 43 then rest else s
    if ds = [] then .error (.errMsg "invalid syntax")
    else if ds.all isDigitB then
      let v : Int := if neg then -(digitsVal ds : Int) else (digitsVal ds : Int)
      if v < -(2 ^ 63) || 2 ^ 63 ≤ v then .error (.errMsg "value out of range")
      else .ok v
    else .error (.errMsg "invalid syntax")

/-- Decimal digits of a positive natural, most significant first
(fuel-driven; `natToDec` supplies enough fuel). -/
def natToDecAux : Nat → Nat → List Nat
  | 0, _ => []
  | _ + 1, 0 => []
  | fuel + 1, n => natToDecAux fuel (n / 10) ++ [48 + n % 10]

/-- ASCII decimal rendering of a natural number (Go `fmt` `%d`/`%v`). -/
def natToDec (n : Nat) : List Nat :=
  if n = 0 then [48] else natToDecAux n n

/-- ASCII decimal rendering of a Go `int` (Go `fmt` `%v`). -/
def intToDec (z : Int) : List Nat :=
  if z < 0 then 45 :: natToDec (-z).toNat else natToDec z.toNat

theorem natToDecAux_digits {fuel n : Nat} :
    ∀ d ∈ natToDecAux fuel n, 48 ≤ d ∧ d ≤ 57 := by
  induction fuel generalizing n with
  | zero => simp [natToDecAux]
  | succ k ih =>
    match n with
    | 0 => simp [natToDecAux]
    | m + 1 =>
      simp only [natToDecAux, List.mem_append, List.mem_singleton]
      rintro d (h | rfl)
      · exact ih _ h
      · have := Nat.mod_lt (m + 1) (show 0 < 10 by omega)
        omega

theorem natToDec_digits {n : Nat} : ∀ d ∈ natToDec n, 48 ≤ d ∧ d ≤ 57 := by
  unfold natToDec
  split
  · simp
  · exact natToDecAux_digits

theorem natToDecAux_ne_nil {fuel n : Nat} (hn : 0 < n) (hf : 0 < fuel) :
    natToDecAux fuel n ≠ [] := by
  match fuel, n with
  | f + 1, m + 1 => simp [natToDecAux]

theorem natToDec_ne_nil {n : Nat} : natToDec n ≠ [] := by
  unfold natToDec
  split
  · simp
  · exact natToDecAux_ne_nil (by omega) (by omega)

theorem digitsVal_append_one (xs : List Nat) (d : Nat) :
    digitsVal (xs ++ [d]) = 10 * digitsVal xs + (d - 48) := by
  simp [digitsVal, List.foldl_append]
  ring

theorem natToDecAux_val {fuel n : Nat} (h : n ≤ fuel) :
    digitsVal (natToDecAux fuel n) = n := by
  induction fuel generalizing n with
  | zero =>
    have : n = 0 := by omega
    simp [this, natToDecAux, digitsVal]
  | succ k ih =>
    match n with
    | 0 => simp [natToDecAux, digitsVal]
    | m + 1 =>
      have hdiv : (m + 1) / 10 ≤ k := by omega
      simp only [natToDecAux, digitsVal_append_one, ih hdiv]
      have h48 : 48 + (m + 1) % 10 - 48 = (m + 1) % 10 := by omega
      rw [h48]
      omega

theorem natToDec_val (n : Nat) : digitsVal (natToDec n) = n := by
  unfold natToDec
  split
  · simp [digitsVal]
    omega
  · exact natToDecAux_val (Nat.le_refl n)

theorem isDigitB_iff {c : Nat} : isDigitB c = true ↔ 48 ≤ c ∧ c ≤ 57 := by
  simp [isDigitB]

theorem goAtoi_digits {c : Nat} {rest : List Nat}
    (hdig : ∀ d ∈ c :: rest, 48 ≤ d ∧ d ≤ 57)
    (h : (digitsVal (c :: rest) : Int) < 2 ^ 63) :
    goAtoi (c :: rest) = .ok (digitsVal (c :: rest)) := by
  have hc := hdig c (by simp)
  have h45 : decide (c = 45) = false := decide_eq_false (by omega)
  have h43 : decide (c = 43) = false := decide_eq_false (by omega)
  have hall : (c :: rest).all isDigitB = true := by
    rw [List.all_eq_true]
    intro d hd
    simpa [isDigitB] using hdig d hd
  simp [goAtoi, h45, h43, hall]
  omega

theorem goAtoi_natToDec {n : Nat} (h : (n : Int) < 2 ^ 63) :
    goAtoi (natToDec n) = .ok (n : Int) := by
  rcases hne : natToDec n with _ | ⟨c, rest⟩
  · exact absurd hne natToDec_ne_nil
  · have hdig : ∀ d ∈ c :: rest, 48 ≤ d ∧ d ≤ 57 := by
      rw [← hne]; exact natToDec_digits
    have hval : digitsVal (c :: rest) = n := by
      rw [← hne]; exact natToDec_val n
    rw [goAtoi_digits hdig (by rw [hval]; exact h), hval]

theorem goAtoi_negDigits {c : Nat} {rest : List Nat}
    (hdig : ∀ d ∈ c :: rest, 48 ≤ d ∧ d ≤ 57)
    (h : -(2 ^ 63) ≤ -(digitsVal (c :: rest) : Int)) :
    goAtoi (45 :: c :: rest) = .ok (-(digitsVal (c :: rest) : Int)) := by
  have hall : (c :: rest).all isDigitB = true := by
    rw [List.all_eq_true]
    intro d hd
    simpa [isDigitB] using hdig d hd
  simp [goAtoi, hall]
  omega

theorem goAtoi_intToDec {z : Int} (h1 : -(2 ^ 63) ≤ z) (h2 : z < 2 ^ 63) :
    goAtoi (intToDec z) = .ok z := by
  by_cases hz : z < 0
  · simp only [intToDec, if_pos hz]
    rcases hne : natToDec (-z).toNat with _ | ⟨c, rest⟩
    · exact absurd hne natToDec_ne_nil
    · have hdig : ∀ d ∈ c :: rest, 48 ≤ d ∧ d ≤ 57 := by
        rw [← hne]; exact natToDec_digits
      have hval : digitsVal (c :: rest) = (-z).toNat := by
        rw [← hne]; exact natToDec_val _
      rw [goAtoi_negDigits hdig (by rw [hval]; omega), hval]
      congr 1
      omega
  · have hzn : ((z.toNat : Nat) : Int) = z := by omega
    simp only [intToDec, if_neg hz]
    rw [goAtoi_natToDec (by omega), hzn]

/-!
## The bencode value domain

`BVal` is the decoded-value domain of the codec (`decodeValue` produces
Go `string`, `int`, `[]any`, `map[string]any`).  A Go map carries no key
order; we represent `map[string]any` as an association list whose order
records map-insertion order, and a map built by the decoder never holds
a duplicate key (`dict[key] = value` overwrites).  The `[]byte` case of
`bencodeVal` is byte-identical to the `string` case (`string(v)`), so a
single byte-string constructor covers both.
-/

inductive BVal where
  | str (s : List Nat)
  | int (n : Int)
  | list (l : List BVal)
  | dict (d : List (List Nat × BVal))

/-- `bencodeString`: `fmt.Sprintf("%d:%s", len(s), s)`. -/
def bencodeString (s : List Nat) : List Nat :=
  natToDec s.length ++ 58 :: s

/-- `bencodeInt`: `fmt.Sprintf("i%ve", i)`. -/
def bencodeInt (z : Int) : List Nat :=
  105 :: intToDec z ++ [101]

/-!
`bencodePlain` emits a value with every dictionary in the order of its
association list.  The source encoder `bencodeVal` differs from it in
exactly one point: `bencodeDict` sorts the keys of each dictionary with
`sort.Strings` before emitting (`for _, k := range keys` after
`sort.Strings(keys)`); since the emitted bytes of each entry do not
depend on the order of the others, the source encoder equals plain
emission after recursively sorting every dictionary (`canonV`).
-/

mutual
def bencodePlain : BVal → List Nat
  | .str s => bencodeString s
  | .int n => bencodeInt n
  | .list l => 108 :: bencodePlainL l ++ [101]
  | .dict d => 100 :: bencodePlainD d ++ [101]
def bencodePlainL : List BVal → List Nat
  | [] => []
  | v :: vs => bencodePlain v ++ bencodePlainL vs
def bencodePlainD : List (List Nat × BVal) → List Nat
  | [] => []
  | (k, v) :: ps => bencodeString k ++ bencodePlain v ++ bencodePlainD ps
end

/-- `sort.Strings` on the keys of a dictionary, carrying the values
along: ascending lexicographic byte order (Go string `<` is `List.Lex`
on the bytes, the order of `LinearOrder (List Nat)`). -/
def sortKV (d : List (List Nat × BVal)) : List (List Nat × BVal) :=
  List.insertionSort (fun p q => p.1 ≤ q.1) d

mutual
/-- Recursively sort every dictionary of a value by key. -/
def canonV : BVal → BVal
  | .str s => .str s
  | .int n => .int n
  | .list l => .list (canonL l)
  | .dict d => .dict (sortKV (canonD d))
def canonL : List BVal → List BVal
  | [] => []
  | v :: vs => canonV v :: canonL vs
def canonD : List (List Nat × BVal) → List (List Nat × BVal)
  | [] => []
  | (k, v) :: ps => (k, canonV v) :: canonD ps
end

/-- The source encoder `bencodeVal` (keys of every dictionary sorted by
`bencodeDict` before emission). -/
def bencodeVal (v : BVal) : List Nat :=
  bencodePlain (canonV v)

/-- The source encoder `bencodeDict` applied to one dictionary. -/
def bencodeDict (d : List (List Nat × BVal)) : List Nat :=
  bencodeVal (.dict d)

/-- The source encoder `bencodeList` applied to one list. -/
def bencodeList (l : List BVal) : List Nat :=
  bencodeVal (.list l)

example : bencodeDict [] = bytes "de" := by rfl
example : bencodeInt 0 = bytes "i0e" := by rfl
example : bencodeDict [(bytes "spam", .str (bytes "eggs"))] = bytes "d4:spam4:eggse" := by rfl
example :
    bencodeDict [(bytes "b", .int 2), (bytes "a", .int 1)] = bytes "d1:ai1e1:bi2ee" := by
  rfl

/-!
## The bencode decoder

The source decoder is stream-oriented over a `bufio.Reader`; we model the
reader as the list of bytes not yet consumed, so every decoding function
returns the decoded result together with the remaining bytes.  The
mutual recursion of `decodeValue`/`decodeList`/`decodeDict` terminates
because every step consumes input; the model makes this explicit with a
fuel parameter, and `decodeBencode` supplies fuel exceeding the input
length, which the roundtrip lemmas show is always sufficient.  The
`bufio.Reader` of `decodeBencode` (`bufio.NewReader`) holds 4096
bytes, which bounds what `Peek` can return; the model carries this
constant.
-/

/-- `bufio.Reader.ReadString(delim)`: the bytes before the first
occurrence of `delim` (which the source then strips), and the bytes
after it; an EOF error if `delim` never occurs. -/
def readUntil (delim : Nat) : List Nat → Except GoErr (List Nat × List Nat)
  | [] => .error (.errMsg "EOF")
  | c :: rest =>
    if c = delim then .ok ([], rest)
    else do
      let (tok, rest') ← readUntil delim rest
      .ok (c :: tok, rest')

/-- `parseInt`: read a decimal number terminated by `delim`
(`ReadString` followed by `strconv.Atoi` on the delimiter-stripped
token). -/
def parseIntTok (delim : Nat) (input : List Nat) : Except GoErr (Int × List Nat) := do
  let tr ← readUntil delim input
  let n ← goAtoi tr.1
  pure (n, tr.2)

/-- `decodeByteString`: `<decimal length> ':' <bytes>`; negative lengths
rejected.  The source peeks `length` bytes and, when `Peek` errors,
discards `length` bytes and returns the peeked buffer with the
`Discard` error.  With the 4096-byte `bufio.NewReader` buffer this
gives three behaviours: too little input makes `Discard` fall short —
an error; a length over 4096 with enough input makes `Peek` fail with
`ErrBufferFull` after filling the buffer while `Discard` succeeds — the
function returns only the first 4096 bytes with a nil error; otherwise
`Peek` succeeds and the subsequent `Read` returns the buffered bytes in
full. -/
def decodeByteString (input : List Nat) : Except GoErr (List Nat × List Nat) := do
  let nr ← parseIntTok 58 input
  if nr.1 < 0 then .error (.errMsg "invalid string length")
  else if nr.2.length < nr.1.toNat then .error (.errMsg "EOF")
  else if 4096 < nr.1.toNat then pure (nr.2.take 4096, nr.2.drop nr.1.toNat)
  else pure (nr.2.take nr.1.toNat, nr.2.drop nr.1.toNat)

/-- `decodeInt`: `'i' <decimal> 'e'`, the decimal parsed by
`strconv.Atoi` (so `-0` and leading zeros are accepted). -/
def decodeInt (input : List Nat) : Except GoErr (Int × List Nat) :=
  match input with
  | 105 :: rest => parseIntTok 101 rest
  | _ => .error (.errMsg "integer should start with i character")

/-- Go map assignment `dict[key] = value`: overwrite an existing entry
for `key`, otherwise add a new one. -/
def mapInsert (d : List (List Nat × BVal)) (k : List Nat) (v : BVal) :
    List (List Nat × BVal) :=
  if d.any (fun p => p.1 = k) then
    d.map (fun p => if p.1 = k then (k, v) else p)
  else d ++ [(k, v)]

mutual
/-- `decodeValue`: dispatch on the peeked first byte (digit or `'-'` →
string, `'i'` → integer, `'l'` → list, `'d'` → dictionary).  The `'l'`
and `'d'` readers consume their opening byte and loop until the closing
`'e'`. -/
def decodeValue : Nat → List Nat → Except GoErr (BVal × List Nat)
  | 0, _ => .error (.errMsg "out of fuel")
  | _ + 1, [] => .error (.errMsg "EOF")
  | fuel + 1, c :: rest =>
    if isDigitB c || c = 45 then do
      let sr ← decodeByteString (c :: rest)
      pure (.str sr.1, sr.2)
    else if c = 105 then do
      let nr ← decodeInt (c :: rest)
      pure (.int nr.1, nr.2)
    else if c = 108 then
      decodeListLoop fuel rest []
    else if c = 100 then
      decodeDictLoop fuel rest []
    else .error (.errMsg "invalid data type")
/-- The element loop of `decodeList`: peek one byte, stop on `'e'`,
otherwise decode a value and append it (`list` starts as the empty
slice). -/
def decodeListLoop : Nat → List Nat → List BVal → Except GoErr (BVal × List Nat)
  | 0, _, _ => .error (.errMsg "out of fuel")
  | _ + 1, [], _ => .error (.errMsg "EOF")
  | fuel + 1, c :: rest, acc =>
    if c = 101 then .ok (.list acc, rest)
    else do
      let vr ← decodeValue fuel (c :: rest)
      decodeListLoop fuel vr.2 (acc ++ [vr.1])
/-- The entry loop of `decodeDict`: peek one byte, stop on `'e'`,
otherwise key via `decodeStr`, value via `decodeValue`, then
`dict[key] = value`. -/
def decodeDictLoop : Nat → List Nat → List (List Nat × BVal) →
    Except GoErr (BVal × List Nat)
  | 0, _, _ => .error (.errMsg "out of fuel")
  | _ + 1, [], _ => .error (.errMsg "EOF")
  | fuel + 1, c :: rest, acc =>
    if c = 101 then .ok (.dict acc, rest)
    else do
      let kr ← decodeByteString (c :: rest)
      let vr ← decodeValue fuel kr.2
      decodeDictLoop fuel vr.2 (mapInsert acc kr.1 vr.1)
end

/-- `decodeBencode`: decode one value from the front of the input (any
trailing bytes are ignored, as in the source). -/
def decodeBencode (x : List Nat) : Except GoErr BVal := do
  let vr ← decodeValue (x.length + 1) x
  pure vr.1

example : decodeBencode (bytes "5:hello") = .ok (.str (bytes "hello")) := by rfl
example : decodeBencode (bytes "i-42e") = .ok (.int (-42)) := by rfl
example : decodeBencode (bytes "i-0e") = .ok (.int 0) := by rfl
example : decodeBencode (bytes "i042e") = .ok (.int 42) := by rfl
example :
    decodeBencode (bytes "d3:cow3:moo4:spam4:eggse") =
      .ok (.dict [(bytes "cow", .str (bytes "moo")), (bytes "spam", .str (bytes "eggs"))]) := by
  rfl
example : decodeBencode (bytes "l4:spam4:eggse") =
    .ok (.list [.str (bytes "spam"), .str (bytes "eggs")]) := by rfl

/-!
## Roundtrip infrastructure

`goodV v` states that `v` lies in the Go value domain: every integer
fits in 64-bit `int`, every byte string and dictionary key has `int`
length, and no dictionary holds a duplicate key (true of every Go map).
`bfuel` measures the fuel the fuel-indexed decoder needs on the
encoding of a value.
-/

mutual
def goodV : BVal → Bool
  | .str s => decide (s.length < 2 ^ 63)
  | .int n => decide (-(2 ^ 63) ≤ n) && decide (n < 2 ^ 63)
  | .list l => goodL l
  | .dict d =>
    decide ((d.map Prod.fst).Nodup) &&
      d.all (fun p => decide (p.1.length < 2 ^ 63)) && goodD d
def goodL : List BVal → Bool
  | [] => true
  | v :: vs => goodV v && goodL vs
def goodD : List (List Nat × BVal) → Bool
  | [] => true
  | (_, v) :: ps => goodV v && goodD ps
end

mutual
def bfuel : BVal → Nat
  | .str _ => 1
  | .int _ => 1
  | .list l => 1 + lfuel l
  | .dict d => 1 + dfuel d
def lfuel : List BVal → Nat
  | [] => 1
  | v :: vs => 1 + max (bfuel v) (lfuel vs)
def dfuel : List (List Nat × BVal) → Nat
  | [] => 1
  | (_, v) :: ps => 1 + max (bfuel v) (dfuel ps)
end

theorem sizeOf_mem_list {w : BVal} {l : List BVal} (h : w ∈ l) :
    sizeOf w < 1 + sizeOf l := by
  have := List.sizeOf_lt_of_mem h
  omega

theorem sizeOf_mem_dict {p : List Nat × BVal} {d : List (List Nat × BVal)}
    (h : p ∈ d) : sizeOf p.2 < 1 + sizeOf d := by
  have h1 := List.sizeOf_lt_of_mem h
  obtain ⟨a, b⟩ := p
  simp only [Prod.mk.sizeOf_spec] at h1
  show sizeOf b < 1 + sizeOf d
  omega

/-- Structural induction for `BVal` through the nested lists. -/
theorem BVal.inductionOn {P : BVal → Prop} (v : BVal)
    (hstr : ∀ s, P (.str s)) (hint : ∀ n, P (.int n))
    (hlist : ∀ l, (∀ w ∈ l, P w) → P (.list l))
    (hdict : ∀ d, (∀ p ∈ d, P p.2) → P (.dict d)) : P v :=
  match v with
  | .str s => hstr s
  | .int n => hint n
  | .list l => hlist l (fun w hw =>
      have : sizeOf w < 1 + sizeOf l := sizeOf_mem_list hw
      BVal.inductionOn w hstr hint hlist hdict)
  | .dict d => hdict d (fun p hp =>
      have : sizeOf p.2 < 1 + sizeOf d := sizeOf_mem_dict hp
      BVal.inductionOn p.2 hstr hint hlist hdict)
termination_by sizeOf v

theorem goodL_iff {l : List BVal} : goodL l = true ↔ ∀ v ∈ l, goodV v = true := by
  induction l with
  | nil => simp [goodL]
  | cons v vs ih => simp [goodL, ih]

theorem goodD_iff {d : List (List Nat × BVal)} :
    goodD d = true ↔ ∀ p ∈ d, goodV p.2 = true := by
  induction d with
  | nil => simp [goodD]
  | cons p ps ih =>
    obtain ⟨k, v⟩ := p
    simp [goodD, ih]

mutual
/-- Every byte string and every dictionary key in the value has at most 4096
bytes — the `bufio.NewReader` buffer size — so decoding never hits the
`Peek` truncation branch of `decodeByteString`. -/
def shortV : BVal → Bool
  | .str s => decide (s.length ≤ 4096)
  | .int _ => true
  | .list l => shortL l
  | .dict d => d.all (fun p => decide (p.1.length ≤ 4096)) && shortD d
def shortL : List BVal → Bool
  | [] => true
  | v :: vs => shortV v && shortL vs
def shortD : List (List Nat × BVal) → Bool
  | [] => true
  | (_, v) :: ps => shortV v && shortD ps
end

theorem shortL_iff {l : List BVal} : shortL l = true ↔ ∀ v ∈ l, shortV v = true := by
  induction l with
  | nil => simp [shortL]
  | cons v vs ih => simp [shortL, ih]

theorem shortD_iff {d : List (List Nat × BVal)} :
    shortD d = true ↔ ∀ p ∈ d, shortV p.2 = true := by
  induction d with
  | nil => simp [shortD]
  | cons p ps ih =>
    obtain ⟨k, v⟩ := p
    simp [shortD, ih]

theorem bindOk {ε α β : Type} (a : α) (f : α → Except ε β) :
    (Except.ok a >>= f) = f a := rfl

theorem pureOk {ε α : Type} (a : α) : (pure a : Except ε α) = .ok a := rfl

theorem readUntil_token {delim : Nat} {tok : List Nat}
    (h : ∀ c ∈ tok, c ≠ delim) (rest : List Nat) :
    readUntil delim (tok ++ delim :: rest) = .ok (tok, rest) := by
  induction tok with
  | nil => simp [readUntil]
  | cons c t ih =>
    have hc : c ≠ delim := h c (by simp)
    simp only [List.cons_append, readUntil, if_neg hc, List.append_eq]
    rw [ih (fun x hx => h x (by simp [hx]))]
    rfl

theorem parseIntTok_enc {delim n : Nat} {tok rest : List Nat} {z : Int}
    (hd : ∀ c ∈ tok, c ≠ delim) (hAtoi : goAtoi tok = .ok z) (hn : n = delim) :
    parseIntTok n (tok ++ delim :: rest) = .ok (z, rest) := by
  subst hn
  rw [parseIntTok, readUntil_token hd, bindOk]
  show (do
    let n ← goAtoi tok
    pure (n, rest) : Except GoErr (Int × List Nat)) = _
  rw [hAtoi, bindOk, pureOk]

theorem decodeByteString_enc {s : List Nat} (h : s.length < 2 ^ 63)
    (hbuf : s.length ≤ 4096) (r : List Nat) :
    decodeByteString (bencodeString s ++ r) = .ok (s, r) := by
  have hdig : ∀ c ∈ natToDec s.length, c ≠ 58 := by
    intro c hc
    have := natToDec_digits c hc
    omega
  have happ : bencodeString s ++ r = natToDec s.length ++ 58 :: (s ++ r) := by
    simp [bencodeString]
  rw [decodeByteString, happ,
    parseIntTok_enc hdig (goAtoi_natToDec (by exact_mod_cast h)) rfl, bindOk]
  show (if ((s.length : Int)) < 0 then _
    else if (s ++ r).length < ((s.length : Int)).toNat then _
    else if 4096 < ((s.length : Int)).toNat then
      pure ((s ++ r).take 4096, (s ++ r).drop ((s.length : Int)).toNat)
    else pure ((s ++ r).take ((s.length : Int)).toNat, (s ++ r).drop ((s.length : Int)).toNat)) = _
  rw [if_neg (by simp), if_neg (by simp), if_neg (by simp; omega)]
  simp [pureOk, List.take_left, List.drop_left]

/-- The truncation branch of `decodeByteString`: a byte string longer
than the 4096-byte `bufio.NewReader` buffer decodes, with nil error, to
its first 4096 bytes (`Peek` returns the full buffer with
`ErrBufferFull`, and `Discard` still succeeds). -/
theorem decodeByteString_long {s : List Nat} (h : s.length < 2 ^ 63)
    (hbuf : 4096 < s.length) (r : List Nat) :
    decodeByteString (bencodeString s ++ r) = .ok (s.take 4096, r) := by
  have hdig : ∀ c ∈ natToDec s.length, c ≠ 58 := by
    intro c hc
    have := natToDec_digits c hc
    omega
  have happ : bencodeString s ++ r = natToDec s.length ++ 58 :: (s ++ r) := by
    simp [bencodeString]
  rw [decodeByteString, happ,
    parseIntTok_enc hdig (goAtoi_natToDec (by exact_mod_cast h)) rfl, bindOk]
  show (if ((s.length : Int)) < 0 then _
    else if (s ++ r).length < ((s.length : Int)).toNat then _
    else if 4096 < ((s.length : Int)).toNat then
      pure ((s ++ r).take 4096, (s ++ r).drop ((s.length : Int)).toNat)
    else pure ((s ++ r).take ((s.length : Int)).toNat, (s ++ r).drop ((s.length : Int)).toNat)) = _
  rw [if_neg (by simp), if_neg (by simp), if_pos (by simp; omega)]
  rw [pureOk, List.take_append_of_le_length (by omega)]
  simp [List.drop_left]

theorem intToDec_members {z : Int} :
    ∀ c ∈ intToDec z, c = 45 ∨ (48 ≤ c ∧ c ≤ 57) := by
  intro c hc
  unfold intToDec at hc
  split at hc
  · rw [List.mem_cons] at hc
    rcases hc with rfl | hc
    · exact Or.inl rfl
    · exact Or.inr (natToDec_digits c hc)
  · exact Or.inr (natToDec_digits c hc)

theorem decodeInt_enc {z : Int} (h1 : -(2 ^ 63) ≤ z) (h2 : z < 2 ^ 63) (r : List Nat) :
    decodeInt (bencodeInt z ++ r) = .ok (z, r) := by
  have happ : bencodeInt z ++ r = 105 :: (intToDec z ++ 101 :: r) := by
    simp [bencodeInt]
  have hdig : ∀ c ∈ intToDec z, c ≠ 101 := by
    intro c hc
    rcases intToDec_members c hc with rfl | ⟨ha, hb⟩ <;> omega
  rw [happ, decodeInt, parseIntTok_enc hdig (goAtoi_intToDec h1 h2) rfl]

theorem mapInsert_fresh {acc : List (List Nat × BVal)} {k : List Nat} {v : BVal}
    (h : ∀ p ∈ acc, p.1 ≠ k) : mapInsert acc k v = acc ++ [(k, v)] := by
  rw [mapInsert, if_neg]
  simp only [List.any_eq_true, not_exists, not_and]
  intro p hp
  simp [h p hp]

theorem natToDec_cons (n : Nat) :
    ∃ c t, natToDec n = c :: t ∧ 48 ≤ c ∧ c ≤ 57 := by
  rcases hne : natToDec n with _ | ⟨c, t⟩
  · exact absurd hne natToDec_ne_nil
  · have hc : 48 ≤ c ∧ c ≤ 57 := by
      have := natToDec_digits (n := n)
      rw [hne] at this
      exact this c (by simp)
    exact ⟨c, t, rfl, hc⟩

theorem bencodeString_cons (s : List Nat) :
    ∃ c t, bencodeString s = c :: t ∧ 48 ≤ c ∧ c ≤ 57 := by
  obtain ⟨c, t, hct, hc⟩ := natToDec_cons s.length
  exact ⟨c, t ++ 58 :: s, by simp [bencodeString, hct], hc⟩

/-- Decoding the encoding of a byte string longer than the 4096-byte
reader buffer succeeds but yields only the first 4096 bytes. -/
theorem decodeBencode_long {s : List Nat} (h : s.length < 2 ^ 63)
    (hbuf : 4096 < s.length) :
    decodeBencode (bencodeString s) = .ok (.str (s.take 4096)) := by
  obtain ⟨c, t, hct, hc1, hc2⟩ := bencodeString_cons s
  have hv : decodeValue ((bencodeString s).length + 1) (bencodeString s)
      = .ok (.str (s.take 4096), []) := by
    conv_lhs => rw [hct]
    simp only [decodeValue]
    rw [if_pos (show (isDigitB c || decide (c = 45)) = true by
      simp [isDigitB]; omega)]
    rw [show c :: t = bencodeString s ++ [] from by simp [hct],
      decodeByteString_long h hbuf, bindOk, pureOk]
  rw [decodeBencode, hv, bindOk, pureOk]

/-- Every plain encoding starts with a byte other than `'e'` (a digit,
`'i'`, `'l'` or `'d'`), so the list/dict loops never mistake a value for
the closing `'e'`. -/
theorem bencodePlain_cons (v : BVal) :
    ∃ c t, bencodePlain v = c :: t ∧ c ≠ 101 := by
  match v with
  | .str s =>
    obtain ⟨c, t, hct, hc1, hc2⟩ := bencodeString_cons s
    refine ⟨c, t, ?_, by omega⟩
    simp [bencodePlain, hct]
  | .int n =>
    refine ⟨105, intToDec n ++ [101], ?_, by omega⟩
    simp [bencodePlain, bencodeInt]
  | .list l =>
    refine ⟨108, bencodePlainL l ++ [101], ?_, by omega⟩
    simp [bencodePlain]
  | .dict d =>
    refine ⟨100, bencodePlainD d ++ [101], ?_, by omega⟩
    simp [bencodePlain]

theorem bencodePlain_len2 (v : BVal) : 2 ≤ (bencodePlain v).length := by
  match v with
  | .str s =>
    have := natToDec_ne_nil (n := s.length)
    have : 1 ≤ (natToDec s.length).length := by
      cases h : natToDec s.length
      · exact absurd h natToDec_ne_nil
      · simp
    simp [bencodePlain, bencodeString]
    omega
  | .int n =>
    simp [bencodePlain, bencodeInt]
  | .list l => simp [bencodePlain]
  | .dict d => simp [bencodePlain]

theorem lfuel_le {l : List BVal}
    (ih : ∀ w ∈ l, bfuel w ≤ (bencodePlain w).length + 1) :
    lfuel l ≤ (bencodePlainL l).length + 2 := by
  induction l with
  | nil => simp [lfuel, bencodePlainL]
  | cons w ws ihl =>
    have h1 := ih w (by simp)
    have h2 := ihl (fun x hx => ih x (by simp [hx]))
    have h3 := bencodePlain_len2 w
    simp only [lfuel, bencodePlainL, List.length_append]
    omega

theorem dfuel_le {d : List (List Nat × BVal)}
    (ih : ∀ p ∈ d, bfuel p.2 ≤ (bencodePlain p.2).length + 1) :
    dfuel d ≤ (bencodePlainD d).length + 2 := by
  induction d with
  | nil => simp [dfuel, bencodePlainD]
  | cons p ps ihd =>
    obtain ⟨k, v⟩ := p
    have h1 : bfuel v ≤ (bencodePlain v).length + 1 := ih (k, v) (by simp)
    have h2 := ihd (fun x hx => ih x (by simp [hx]))
    have h3 := bencodePlain_len2 v
    simp only [dfuel, bencodePlainD, List.length_append]
    omega

theorem bfuel_le (v : BVal) : bfuel v ≤ (bencodePlain v).length + 1 := by
  induction v using BVal.inductionOn with
  | hstr s => simp [bfuel, bencodePlain, bencodeString]
  | hint n => simp [bfuel, bencodePlain, bencodeInt]
  | hlist l ih =>
    have := lfuel_le ih
    simp only [bfuel, bencodePlain, List.length_append, List.length_cons]
    omega
  | hdict d ih =>
    have := dfuel_le ih
    simp only [bfuel, bencodePlain, List.length_append, List.length_cons]
    omega

theorem decodeListLoop_enc {l : List BVal}
    (ih : ∀ w ∈ l, goodV w = true → shortV w = true → ∀ fuel r, bfuel w ≤ fuel →
      decodeValue fuel (bencodePlain w ++ r) = .ok (w, r))
    (hg : goodL l = true) (hs : shortL l = true) :
    ∀ fuel r acc, lfuel l ≤ fuel →
      decodeListLoop fuel (bencodePlainL l ++ 101 :: r) acc = .ok (.list (acc ++ l), r) := by
  induction l with
  | nil =>
    intro fuel r acc hf
    obtain ⟨f, rfl⟩ : ∃ f, fuel = f + 1 := ⟨fuel - 1, by simp [lfuel] at hf; omega⟩
    simp [bencodePlainL, decodeListLoop]
  | cons w ws ihl =>
    intro fuel r acc hf
    have hfl : lfuel (w :: ws) = 1 + max (bfuel w) (lfuel ws) := by simp [lfuel]
    obtain ⟨f, rfl⟩ : ∃ f, fuel = f + 1 := ⟨fuel - 1, by omega⟩
    have hgw : goodV w = true := (goodL_iff.mp hg) w (by simp)
    have hgws : goodL ws = true :=
      goodL_iff.mpr (fun x hx => (goodL_iff.mp hg) x (by simp [hx]))
    have hsw : shortV w = true := (shortL_iff.mp hs) w (by simp)
    have hsws : shortL ws = true :=
      shortL_iff.mpr (fun x hx => (shortL_iff.mp hs) x (by simp [hx]))
    obtain ⟨c, t, hct, hc⟩ := bencodePlain_cons w
    have hinput : bencodePlainL (w :: ws) ++ 101 :: r
        = c :: (t ++ (bencodePlainL ws ++ 101 :: r)) := by
      simp [bencodePlainL, hct]
    rw [hinput]
    simp only [decodeListLoop, if_neg hc]
    rw [show c :: (t ++ (bencodePlainL ws ++ 101 :: r))
        = bencodePlain w ++ (bencodePlainL ws ++ 101 :: r) from by simp [hct],
      ih w (by simp) hgw hsw f _ (by omega), bindOk,
      ihl (fun x hx => ih x (by simp [hx])) hgws hsws f r (acc ++ [w]) (by omega)]
    simp

theorem decodeDictLoop_enc {d : List (List Nat × BVal)}
    (ih : ∀ p ∈ d, goodV p.2 = true → shortV p.2 = true → ∀ fuel r, bfuel p.2 ≤ fuel →
      decodeValue fuel (bencodePlain p.2 ++ r) = .ok (p.2, r))
    (hg : goodD d = true) (hs : shortD d = true)
    (hklen : ∀ p ∈ d, p.1.length < 2 ^ 63)
    (hkbuf : ∀ p ∈ d, p.1.length ≤ 4096) :
    ∀ fuel r acc, dfuel d ≤ fuel →
      ((acc ++ d).map Prod.fst).Nodup →
      decodeDictLoop fuel (bencodePlainD d ++ 101 :: r) acc = .ok (.dict (acc ++ d), r) := by
  induction d with
  | nil =>
    intro fuel r acc hf hnd
    obtain ⟨f, rfl⟩ : ∃ f, fuel = f + 1 := ⟨fuel - 1, by simp [dfuel] at hf; omega⟩
    simp [bencodePlainD, decodeDictLoop]
  | cons p ps ihd =>
    obtain ⟨k, v⟩ := p
    intro fuel r acc hf hnd
    have hfd : dfuel ((k, v) :: ps) = 1 + max (bfuel v) (dfuel ps) := by simp [dfuel]
    obtain ⟨f, rfl⟩ : ∃ f, fuel = f + 1 := ⟨fuel - 1, by omega⟩
    have hgv : goodV v = true := (goodD_iff.mp hg) (k, v) (by simp)
    have hgps : goodD ps = true :=
      goodD_iff.mpr (fun x hx => (goodD_iff.mp hg) x (by simp [hx]))
    have hsv : shortV v = true := (shortD_iff.mp hs) (k, v) (by simp)
    have hsps : shortD ps = true :=
      shortD_iff.mpr (fun x hx => (shortD_iff.mp hs) x (by simp [hx]))
    obtain ⟨c, t, hct, hc1, hc2⟩ := bencodeString_cons k
    have hc : c ≠ 101 := by omega
    have hinput : bencodePlainD ((k, v) :: ps) ++ 101 :: r
        = c :: (t ++ (bencodePlain v ++ (bencodePlainD ps ++ 101 :: r))) := by
      simp [bencodePlainD, hct]
    rw [hinput]
    simp only [decodeDictLoop, if_neg hc]
    rw [show c :: (t ++ (bencodePlain v ++ (bencodePlainD ps ++ 101 :: r)))
        = bencodeString k ++ (bencodePlain v ++ (bencodePlainD ps ++ 101 :: r)) from by
          simp [hct],
      decodeByteString_enc (hklen (k, v) (by simp)) (hkbuf (k, v) (by simp)) _, bindOk,
      ih (k, v) (by simp) hgv hsv f _ (by show bfuel v ≤ f; omega), bindOk]
    have hfresh : ∀ q ∈ acc, q.1 ≠ k := by
      intro q hq hqk
      have hmap : (acc.map Prod.fst ++ ((k, v) :: ps).map Prod.fst).Nodup := by
        simpa [List.map_append] using hnd
      have hdisj := (List.nodup_append.mp hmap).2.2
      exact hdisj (List.mem_map_of_mem Prod.fst hq) (by simp [hqk])
    rw [mapInsert_fresh hfresh,
      ihd (fun x hx => ih x (by simp [hx])) hgps hsps
        (fun x hx => hklen x (by simp [hx]))
        (fun x hx => hkbuf x (by simp [hx])) f r (acc ++ [(k, v)]) (by omega)
        (by simpa [List.append_assoc] using hnd)]
    simp

theorem decodeValue_enc (v : BVal) :
    goodV v = true → shortV v = true → ∀ fuel r, bfuel v ≤ fuel →
      decodeValue fuel (bencodePlain v ++ r) = .ok (v, r) := by
  induction v using BVal.inductionOn with
  | hstr s =>
    intro hg hs fuel r hf
    obtain ⟨f, rfl⟩ : ∃ f, fuel = f + 1 := ⟨fuel - 1, by simp [bfuel] at hf; omega⟩
    have hlen : s.length < 2 ^ 63 := by simpa [goodV] using hg
    have hbuf : s.length ≤ 4096 := by simpa [shortV] using hs
    obtain ⟨c, t, hct, hc1, hc2⟩ := bencodeString_cons s
    have hinput : bencodePlain (.str s) ++ r = c :: (t ++ r) := by
      simp [bencodePlain, hct]
    rw [hinput]
    simp only [decodeValue]
    rw [if_pos (show (isDigitB c || decide (c = 45)) = true by
      simp [isDigitB]; omega)]
    rw [show c :: (t ++ r) = bencodeString s ++ r from by simp [hct],
      decodeByteString_enc hlen hbuf, bindOk, pureOk]
  | hint n =>
    intro hg hs fuel r hf
    obtain ⟨f, rfl⟩ : ∃ f, fuel = f + 1 := ⟨fuel - 1, by simp [bfuel] at hf; omega⟩
    have hrange : -(2 ^ 63) ≤ n ∧ n < 2 ^ 63 := by
      simpa [goodV] using hg
    have hinput : bencodePlain (.int n) ++ r = 105 :: ((intToDec n ++ [101]) ++ r) := by
      simp [bencodePlain, bencodeInt]
    rw [hinput]
    simp only [decodeValue]
    rw [if_neg (by simp [isDigitB]), if_pos trivial]
    rw [show (105 : Nat) :: ((intToDec n ++ [101]) ++ r) = bencodeInt n ++ r from by
        simp [bencodeInt],
      decodeInt_enc hrange.1 hrange.2, bindOk, pureOk]
  | hlist l ihm =>
    intro hg hs fuel r hf
    obtain ⟨f, rfl⟩ : ∃ f, fuel = f + 1 := ⟨fuel - 1, by simp [bfuel] at hf; omega⟩
    have hgl : goodL l = true := by simpa [goodV] using hg
    have hsl : shortL l = true := by simpa [shortV] using hs
    have hfl : lfuel l ≤ f := by simp [bfuel] at hf; omega
    have hinput : bencodePlain (.list l) ++ r = 108 :: (bencodePlainL l ++ 101 :: r) := by
      simp [bencodePlain]
    rw [hinput]
    simp only [decodeValue]
    rw [if_neg (by simp [isDigitB]), if_neg (by simp), if_pos trivial,
      decodeListLoop_enc ihm hgl hsl f r [] hfl]
    simp
  | hdict d ihm =>
    intro hg hs fuel r hf
    obtain ⟨f, rfl⟩ : ∃ f, fuel = f + 1 := ⟨fuel - 1, by simp [bfuel] at hf; omega⟩
    have hparts : ((d.map Prod.fst).Nodup ∧ ∀ p ∈ d, p.1.length < 2 ^ 63) ∧
        goodD d = true := by
      simpa [goodV, List.all_eq_true] using hg
    have hsparts : (∀ p ∈ d, p.1.length ≤ 4096) ∧ shortD d = true := by
      simpa [shortV, List.all_eq_true] using hs
    have hfd : dfuel d ≤ f := by simp [bfuel] at hf; omega
    have hinput : bencodePlain (.dict d) ++ r = 100 :: (bencodePlainD d ++ 101 :: r) := by
      simp [bencodePlain]
    rw [hinput]
    simp only [decodeValue]
    rw [if_neg (by simp [isDigitB]), if_neg (by simp), if_neg (by simp), if_pos trivial,
      decodeDictLoop_enc ihm hparts.2 hsparts.2 hparts.1.2 hsparts.1 f r [] hfd
        (by simpa using hparts.1.1)]
    simp

theorem decodeBencode_bencodePlain {v : BVal} (hg : goodV v = true)
    (hs : shortV v = true) :
    decodeBencode (bencodePlain v) = .ok v := by
  rw [decodeBencode]
  have h := decodeValue_enc v hg hs ((bencodePlain v).length + 1) []
    (by have := bfuel_le v; omega)
  rw [List.append_nil] at h
  rw [h, bindOk, pureOk]

/-!
## Canonical form: every dictionary sorted by key
-/

mutual
/-- Every dictionary of the value is already in ascending key order. -/
def sortedV : BVal → Bool
  | .str _ => true
  | .int _ => true
  | .list l => sortedL l
  | .dict d =>
    decide (List.Pairwise (fun p q : List Nat × BVal => p.1 ≤ q.1) d) && sortedD d
def sortedL : List BVal → Bool
  | [] => true
  | v :: vs => sortedV v && sortedL vs
def sortedD : List (List Nat × BVal) → Bool
  | [] => true
  | (_, v) :: ps => sortedV v && sortedD ps
end

instance : IsTotal (List Nat × BVal) (fun p q => p.1 ≤ q.1) :=
  ⟨fun p q => le_total p.1 q.1⟩

instance : IsTrans (List Nat × BVal) (fun p q => p.1 ≤ q.1) :=
  ⟨fun _ _ _ h1 h2 => le_trans h1 h2⟩

instance : IsAntisymm (List Nat × BVal) (fun p q => p.1 < q.1) :=
  ⟨fun _ _ h1 h2 => absurd (lt_trans h1 h2) (lt_irrefl _)⟩

theorem sortedL_iff {l : List BVal} :
    sortedL l = true ↔ ∀ v ∈ l, sortedV v = true := by
  induction l with
  | nil => simp [sortedL]
  | cons v vs ih => simp [sortedL, ih]

theorem sortedD_iff {d : List (List Nat × BVal)} :
    sortedD d = true ↔ ∀ p ∈ d, sortedV p.2 = true := by
  induction d with
  | nil => simp [sortedD]
  | cons p ps ih =>
    obtain ⟨k, v⟩ := p
    simp [sortedD, ih]

theorem sortKV_perm (d : List (List Nat × BVal)) : List.Perm (sortKV d) d :=
  List.perm_insertionSort _ d

theorem sortKV_sorted (d : List (List Nat × BVal)) :
    List.Sorted (fun p q : List Nat × BVal => p.1 ≤ q.1) (sortKV d) :=
  List.sorted_insertionSort _ d

theorem canonD_eq_map (d : List (List Nat × BVal)) :
    canonD d = d.map (fun p => (p.1, canonV p.2)) := by
  induction d with
  | nil => simp [canonD]
  | cons p ps ih =>
    obtain ⟨k, v⟩ := p
    simp [canonD, ih]

theorem canonL_eq_map (l : List BVal) : canonL l = l.map canonV := by
  induction l with
  | nil => simp [canonL]
  | cons v vs ih => simp [canonL, ih]

theorem canonD_keys (d : List (List Nat × BVal)) :
    (canonD d).map Prod.fst = d.map Prod.fst := by
  rw [canonD_eq_map, List.map_map]
  rfl

theorem sortKV_keys_perm (d : List (List Nat × BVal)) :
    List.Perm ((sortKV d).map Prod.fst) (d.map Prod.fst) :=
  (sortKV_perm d).map Prod.fst

theorem good_canonV (v : BVal) : goodV v = true → goodV (canonV v) = true := by
  induction v using BVal.inductionOn with
  | hstr s => intro h; simpa [canonV] using h
  | hint n => intro h; simpa [canonV] using h
  | hlist l ih =>
    intro h
    rw [show canonV (.list l) = .list (canonL l) from by simp [canonV]]
    have hl : goodL l = true := by simpa [goodV] using h
    have : goodL (canonL l) = true := by
      rw [goodL_iff, canonL_eq_map]
      intro w hw
      obtain ⟨w0, hw0, rfl⟩ := List.mem_map.mp hw
      exact ih w0 hw0 ((goodL_iff.mp hl) w0 hw0)
    simpa [goodV] using this
  | hdict d ih =>
    intro h
    rw [show canonV (.dict d) = .dict (sortKV (canonD d)) from by simp [canonV]]
    have hparts : ((d.map Prod.fst).Nodup ∧ ∀ p ∈ d, p.1.length < 2 ^ 63) ∧
        goodD d = true := by
      simpa [goodV, List.all_eq_true] using h
    have hmem : ∀ p ∈ sortKV (canonD d), ∃ q ∈ d, p = (q.1, canonV q.2) := by
      intro p hp
      have hp2 : p ∈ canonD d := (sortKV_perm _).mem_iff.mp hp
      rw [canonD_eq_map] at hp2
      obtain ⟨q, hq, rfl⟩ := List.mem_map.mp hp2
      exact ⟨q, hq, rfl⟩
    have h1 : ((sortKV (canonD d)).map Prod.fst).Nodup :=
      ((sortKV_keys_perm (canonD d)).trans (by rw [canonD_keys])).nodup_iff.mpr
        hparts.1.1
    have h2 : ∀ p ∈ sortKV (canonD d), p.1.length < 2 ^ 63 := by
      intro p hp
      obtain ⟨q, hq, rfl⟩ := hmem p hp
      exact hparts.1.2 q hq
    have h3 : goodD (sortKV (canonD d)) = true := by
      rw [goodD_iff]
      intro p hp
      obtain ⟨q, hq, rfl⟩ := hmem p hp
      exact ih q hq ((goodD_iff.mp hparts.2) q hq)
    simp only [goodV, List.all_eq_true, Bool.and_eq_true, decide_eq_true_eq]
    refine ⟨⟨h1, ?_⟩, h3⟩
    intro p hp
    exact h2 p hp

theorem sorted_canonV (v : BVal) : sortedV (canonV v) = true := by
  induction v using BVal.inductionOn with
  | hstr s => simp [canonV, sortedV]
  | hint n => simp [canonV, sortedV]
  | hlist l ih =>
    rw [show canonV (.list l) = .list (canonL l) from by simp [canonV]]
    have : sortedL (canonL l) = true := by
      rw [sortedL_iff, canonL_eq_map]
      intro w hw
      obtain ⟨w0, hw0, rfl⟩ := List.mem_map.mp hw
      exact ih w0 hw0
    simpa [sortedV] using this
  | hdict d ih =>
    rw [show canonV (.dict d) = .dict (sortKV (canonD d)) from by simp [canonV]]
    have h1 := sortKV_sorted (canonD d)
    have h2 : sortedD (sortKV (canonD d)) = true := by
      rw [sortedD_iff]
      intro p hp
      have hp2 : p ∈ canonD d := (sortKV_perm _).mem_iff.mp hp
      rw [canonD_eq_map] at hp2
      obtain ⟨q, hq, rfl⟩ := List.mem_map.mp hp2
      exact ih q hq
    simp [sortedV, h2]
    exact h1

theorem canonV_eq_self (v : BVal) : sortedV v = true → canonV v = v := by
  induction v using BVal.inductionOn with
  | hstr s => intro h; simp [canonV]
  | hint n => intro h; simp [canonV]
  | hlist l ih =>
    intro h
    have hl : sortedL l = true := by simpa [sortedV] using h
    rw [show canonV (.list l) = .list (canonL l) from by simp [canonV], canonL_eq_map]
    congr 1
    calc l.map canonV = l.map id :=
        List.map_congr_left (fun w hw => ih w hw ((sortedL_iff.mp hl) w hw))
      _ = l := List.map_id l
  | hdict d ih =>
    intro h
    have hparts : List.Pairwise (fun p q : List Nat × BVal => p.1 ≤ q.1) d ∧
        sortedD d = true := by
      simpa [sortedV] using h
    rw [show canonV (.dict d) = .dict (sortKV (canonD d)) from by simp [canonV]]
    have hcd : canonD d = d := by
      rw [canonD_eq_map]
      calc d.map (fun p => (p.1, canonV p.2)) = d.map id := by
            apply List.map_congr_left
            intro p hp
            have hv := ih p hp ((sortedD_iff.mp hparts.2) p hp)
            simp [hv]
        _ = d := List.map_id d
    rw [hcd]
    congr 1
    exact List.Sorted.insertionSort_eq hparts.1

theorem short_canonV (v : BVal) : shortV v = true → shortV (canonV v) = true := by
  induction v using BVal.inductionOn with
  | hstr s => intro h; simpa [canonV] using h
  | hint n => intro h; simpa [canonV] using h
  | hlist l ih =>
    intro h
    rw [show canonV (.list l) = .list (canonL l) from by simp [canonV]]
    have hl : shortL l = true := by simpa [shortV] using h
    have : shortL (canonL l) = true := by
      rw [shortL_iff, canonL_eq_map]
      intro w hw
      obtain ⟨w0, hw0, rfl⟩ := List.mem_map.mp hw
      exact ih w0 hw0 ((shortL_iff.mp hl) w0 hw0)
    simpa [shortV] using this
  | hdict d ih =>
    intro h
    rw [show canonV (.dict d) = .dict (sortKV (canonD d)) from by simp [canonV]]
    have hparts : (∀ p ∈ d, p.1.length ≤ 4096) ∧ shortD d = true := by
      simpa [shortV, List.all_eq_true] using h
    have hmem : ∀ p ∈ sortKV (canonD d), ∃ q ∈ d, p = (q.1, canonV q.2) := by
      intro p hp
      have hp2 : p ∈ canonD d := (sortKV_perm _).mem_iff.mp hp
      rw [canonD_eq_map] at hp2
      obtain ⟨q, hq, rfl⟩ := List.mem_map.mp hp2
      exact ⟨q, hq, rfl⟩
    have h2 : ∀ p ∈ sortKV (canonD d), p.1.length ≤ 4096 := by
      intro p hp
      obtain ⟨q, hq, rfl⟩ := hmem p hp
      exact hparts.1 q hq
    have h3 : shortD (sortKV (canonD d)) = true := by
      rw [shortD_iff]
      intro p hp
      obtain ⟨q, hq, rfl⟩ := hmem p hp
      exact ih q hq ((shortD_iff.mp hparts.2) q hq)
    simp only [shortV, List.all_eq_true, Bool.and_eq_true, decide_eq_true_eq]
    exact ⟨h2, h3⟩

theorem decodeBencode_bencodeVal {v : BVal} (hg : goodV v = true)
    (hs : shortV v = true) :
    decodeBencode (bencodeVal v) = .ok (canonV v) := by
  rw [bencodeVal]
  exact decodeBencode_bencodePlain (good_canonV v hg) (short_canonV v hs)

theorem sortKV_sorted_lt {d : List (List Nat × BVal)} (hnd : (d.map Prod.fst).Nodup) :
    List.Pairwise (fun p q : List Nat × BVal => p.1 < q.1) (sortKV d) := by
  have h1 := sortKV_sorted d
  have h2 : ((sortKV d).map Prod.fst).Nodup := (sortKV_keys_perm d).nodup_iff.mpr hnd
  have h3 : List.Pairwise (fun p q : List Nat × BVal => p.1 ≠ q.1) (sortKV d) := by
    rw [List.Nodup, List.pairwise_map] at h2
    exact h2
  exact (h1.and h3).imp (fun h => lt_of_le_of_ne h.1 h.2)

/-- `sort.Strings` output is determined by the multiset of entries when
no key repeats: the unique strictly-key-sorted arrangement. -/
theorem sortKV_eq_of_perm {d1 d2 : List (List Nat × BVal)} (hp : List.Perm d1 d2)
    (hnd : (d1.map Prod.fst).Nodup) : sortKV d1 = sortKV d2 := by
  have hnd2 : (d2.map Prod.fst).Nodup := (hp.map Prod.fst).nodup_iff.mp hnd
  have hperm : List.Perm (sortKV d1) (sortKV d2) :=
    (sortKV_perm d1).trans (hp.trans (sortKV_perm d2).symm)
  exact List.eq_of_perm_of_sorted hperm (sortKV_sorted_lt hnd) (sortKV_sorted_lt hnd2)

/-- The dictionary encoder emits `d`, then each entry of the key-sorted
entry list, then `e` — the literal shape of the source `bencodeDict`. -/
theorem bencodeDict_emit (d : List (List Nat × BVal)) :
    bencodeDict d = 100 :: bencodePlainD (sortKV (canonD d)) ++ [101] := by
  rw [bencodeDict, bencodeVal,
    show canonV (.dict d) = .dict (sortKV (canonD d)) from by simp [canonV]]
  simp [bencodePlain]

theorem canonD_perm {d1 d2 : List (List Nat × BVal)} (hp : List.Perm d1 d2) :
    List.Perm (canonD d1) (canonD d2) := by
  rw [canonD_eq_map, canonD_eq_map]
  exact hp.map _

theorem bencodeDict_perm {d1 d2 : List (List Nat × BVal)} (hp : List.Perm d1 d2)
    (hnd : (d1.map Prod.fst).Nodup) : bencodeDict d1 = bencodeDict d2 := by
  rw [bencodeDict_emit, bencodeDict_emit]
  have : sortKV (canonD d1) = sortKV (canonD d2) :=
    sortKV_eq_of_perm (canonD_perm hp) (by rw [canonD_keys]; exact hnd)
  rw [this]

example : goodV (.dict [(bytes "b", .int 2), (bytes "a", .int 1)]) = true := by decide
example : sortedV (.dict [(bytes "a", .int 1), (bytes "b", .int 2)]) = true := by decide

/-- C2: for every mapping value, the bencode encoder (`bencodeDict`, via
`sort.Strings` on the keys) emits its key-value pairs with keys in
ascending lexicographic byte order, and the emitted bytes do not depend
on the order in which the entries were supplied or decoded (for
dictionaries without duplicate keys, i.e. every Go map). -/
theorem c2_encoder_emits_sorted_keys :
    (∀ d : List (List Nat × BVal),
      bencodeDict d = 100 :: bencodePlainD (sortKV (canonD d)) ++ [101] ∧
      List.Sorted (α := List Nat) (· ≤ ·) ((sortKV (canonD d)).map Prod.fst)) ∧
    (∀ d1 d2 : List (List Nat × BVal), List.Perm d1 d2 →
      (d1.map Prod.fst).Nodup → bencodeDict d1 = bencodeDict d2) := by
  constructor
  · intro d
    refine ⟨bencodeDict_emit d, ?_⟩
    exact List.pairwise_map.mpr (sortKV_sorted (canonD d))
  · intro d1 d2 hp hnd
    exact bencodeDict_perm hp hnd

/-- Witness for C2 at a concrete two-key mapping supplied in unsorted
order: the encoder output is order-independent and key-sorted. -/
theorem c2_encoder_emits_sorted_keys_witness :
    bencodeDict [(bytes "b", .int 2), (bytes "a", .int 1)]
      = bencodeDict [(bytes "a", .int 1), (bytes "b", .int 2)] ∧
    bencodeDict [(bytes "b", .int 2), (bytes "a", .int 1)] = bytes "d1:ai1e1:bi2ee" :=
  ⟨c2_encoder_emits_sorted_keys.2 _ _
      (List.Perm.swap (bytes "a", BVal.int 1) (bytes "b", BVal.int 2) []) (by decide),
    by rfl⟩

/-- C3 (amended): on the Go value domain (`goodV`) restricted to values
whose byte strings and dictionary keys fit the 4096-byte
`bufio.NewReader` buffer (`shortV`), decoding the encoding of a value
yields the value back — on the nose for canonically ordered
dictionaries (`sortedV`, the faithful rendering of Go map equality),
and up to the recursive key sort `canonV` for any association order;
and every well-formed bencoded input (an encoding `bencodePlain v` with
arbitrary dictionary order) decodes successfully, its re-encoding being
the canonical form with lexicographically ordered keys. Outside this
domain the claim is false: `decodeByteString` silently truncates a byte
string longer than the buffer to its first 4096 bytes
(see the counterexample theorem). -/
theorem c3_decode_encode_roundtrip (v : BVal) (hg : goodV v = true)
    (hsh : shortV v = true) :
    decodeBencode (bencodeVal v) = .ok (canonV v) ∧
    (sortedV v = true → decodeBencode (bencodeVal v) = .ok v) ∧
    decodeBencode (bencodePlain v) = .ok v ∧
    bencodeVal v = bencodePlain (canonV v) ∧
    sortedV (canonV v) = true := by
  refine ⟨decodeBencode_bencodeVal hg hsh, ?_, decodeBencode_bencodePlain hg hsh,
    rfl, sorted_canonV v⟩
  intro hs
  rw [bencodeVal, canonV_eq_self v hs]
  exact decodeBencode_bencodePlain hg hsh

/-- Witness for C3 at a concrete nested value with an unsorted inner
dictionary. -/
theorem c3_decode_encode_roundtrip_witness :
    decodeBencode (bencodeVal (.list [.int 7,
        .dict [(bytes "b", .str (bytes "x")), (bytes "a", .int 1)]]))
      = .ok (.list [.int 7,
        .dict [(bytes "a", .int 1), (bytes "b", .str (bytes "x"))]]) := by
  have h := (c3_decode_encode_roundtrip (.list [.int 7,
      .dict [(bytes "b", .str (bytes "x")), (bytes "a", .int 1)]])
      (by decide) (by decide)).1
  rw [h]
  rfl

/-- C6 counterexample: the integer decoder parses with `strconv.Atoi`,
which accepts the literal `-0` (value `0`) and leading zeros, so the
inputs the claim says are rejected in fact decode successfully. -/
theorem c6_integer_decoder_counterexample :
    decodeBencode (bytes "i-0e") = .ok (.int 0) ∧
    decodeBencode (bytes "i042e") = .ok (.int 42) := by
  exact ⟨rfl, rfl⟩

/-- C6 amended: the integer decoder accepts `i`, an optionally signed
ASCII decimal, `e` with `strconv.Atoi` semantics — leading zeros and
`-0` are accepted (decoding `"i-0e"` succeeds with value `0`); empty or
non-numeric tokens and values outside 64-bit `int` are rejected. -/
theorem c6_integer_decoder_atoi (ds r : List Nat) (h : ∀ c ∈ ds, c ≠ 101) :
    decodeInt (105 :: (ds ++ 101 :: r)) =
      (match goAtoi ds with
        | .ok n => .ok (n, r)
        | .error e => .error e) := by
  rw [decodeInt, parseIntTok, readUntil_token h, bindOk]
  cases hA : goAtoi ds with
  | ok n => rfl
  | error e => rfl

/-- Witness for C6 amended: `i-0e` decodes to `0` and `i042e` to `42`
through the `Atoi` characterisation. -/
theorem c6_integer_decoder_atoi_witness :
    decodeInt (105 :: (bytes "-0" ++ 101 :: [])) = .ok (0, []) ∧
    decodeInt (105 :: (bytes "042" ++ 101 :: [])) = .ok (42, []) := by
  constructor
  · rw [c6_integer_decoder_atoi (bytes "-0") [] (by decide)]
    rfl
  · rw [c6_integer_decoder_atoi (bytes "042") [] (by decide)]
    rfl

/-!
## Compact peer list (pkg/peer parsePeers) and the peer connection
-/

/-- Two's-complement wrap of an `Int` into the `int16` range (Go integer
conversions and shifts truncate). -/
def int16wrap (x : Int) : Int :=
  ((x + 32768) % 65536) - 32768

/-- Go `uint16(x)` applied to an `int16` value. -/
def uint16ofInt (x : Int) : Nat :=
  (x % 65536).toNat

/-- `fmt.Sprintf("%d.%d.%d.%d", a, b, c, d)`. -/
def ipString (a b c d : Nat) : List Nat :=
  natToDec a ++ 46 :: (natToDec b ++ 46 :: (natToDec c ++ 46 :: natToDec d))

/-- `Peer`: dotted-quad address string and 16-bit port. -/
structure Peer where
  ip : List Nat
  port : Nat
deriving DecidableEq, Repr

/-- `parsePeers`: 6 bytes per peer, 4-byte big-endian IPv4 then 2-byte
big-endian port, computed as `int16(b4)<<8 + int16(b5)` and converted
to `uint16`.  The loop steps `i` by 6 while `i < len(peersInfo)`, so a
trailing fragment of 1–5 bytes indexes past the end: a runtime panic,
modelled as `GoErr.panic`; a completed loop always returns a nil
error. -/
def parsePeers (peersInfo : List Nat) : Except GoErr (List Peer) :=
  match peersInfo with
  | [] => .ok []
  | b0 :: b1 :: b2 :: b3 :: b4 :: b5 :: rest => do
    let ps ← parsePeers rest
    .ok ({ ip := ipString b0 b1 b2 b3,
           port := uint16ofInt (int16wrap (int16wrap ((b4 : Int) * 256) + (b5 : Int))) } :: ps)
  | _ => .error (.panic "index out of range")

/-- Modelled from the spec: the tracker's compact encoding that
`parsePeers` inverts — "6 bytes per peer: 4-byte big-endian IPv4 +
2-byte big-endian port".  A peer is given by its four address octets
and its port. -/
structure CompactPeer where
  o1 : Nat
  o2 : Nat
  o3 : Nat
  o4 : Nat
  port : Nat
deriving DecidableEq, Repr

/-- Modelled from the spec: 6-byte big-endian wire form of one peer,
concatenated over the list. -/
def encodeCompact : List CompactPeer → List Nat
  | [] => []
  | p :: rest =>
    p.o1 :: p.o2 :: p.o3 :: p.o4 :: p.port / 256 :: p.port % 256 :: encodeCompact rest

/-- The `Peer` value `parsePeers` produces for one compact entry. -/
def CompactPeer.toPeer (p : CompactPeer) : Peer :=
  { ip := ipString p.o1 p.o2 p.o3 p.o4, port := p.port }

theorem bindErr {ε α β : Type} (e : ε) (f : α → Except ε β) :
    (Except.error e >>= f) = .error e := rfl

theorem port_roundtrip {hi lo : Nat} (hh : hi < 256) (hl : lo < 256) :
    uint16ofInt (int16wrap (int16wrap ((hi : Int) * 256) + (lo : Int))) = 256 * hi + lo := by
  unfold uint16ofInt int16wrap
  omega

/-- C8: decoding the 6-bytes-per-peer compact encoding yields the
original peers back, ports with high byte ≥ 128 included, despite the
signed 16-bit intermediate arithmetic. -/
theorem c8_parsePeers_encodeCompact (ps : List CompactPeer)
    (h : ∀ p ∈ ps, p.o1 < 256 ∧ p.o2 < 256 ∧ p.o3 < 256 ∧ p.o4 < 256 ∧ p.port < 65536) :
    parsePeers (encodeCompact ps) = .ok (ps.map CompactPeer.toPeer) := by
  induction ps with
  | nil => simp [encodeCompact, parsePeers]
  | cons p rest ih =>
    obtain ⟨hp1, hp2, hp3, hp4, hport⟩ := h p (by simp)
    simp only [encodeCompact, parsePeers]
    rw [ih (fun q hq => h q (by simp [hq])), bindOk]
    have hdiv : p.port / 256 < 256 := by omega
    have hmod : p.port % 256 < 256 := by omega
    rw [port_roundtrip hdiv hmod]
    have : 256 * (p.port / 256) + p.port % 256 = p.port := by omega
    rw [this]
    simp [CompactPeer.toPeer]

/-- Witness for C8 at a concrete peer list including a port with high
byte ≥ 128 (port 65535 = 0xFFFF) and one with high byte < 128. -/
theorem c8_parsePeers_encodeCompact_witness :
    parsePeers (encodeCompact [⟨10, 0, 0, 1, 65535⟩, ⟨192, 168, 1, 2, 6881⟩])
      = .ok [⟨bytes "10.0.0.1", 65535⟩, ⟨bytes "192.168.1.2", 6881⟩] := by
  rw [c8_parsePeers_encodeCompact _ (by decide)]
  rfl

/-- C10: `parsePeers` never reports a malformed compact list through
its error result (a completed parse is always `ok`); an input whose
length is 1–5 modulo 6 makes the loop index past the end of the
string, a runtime panic rather than an error return. -/
theorem c10_parsePeers_panics (s : List Nat) :
    (s.length % 6 = 0 → ∃ ps, parsePeers s = .ok ps) ∧
    (s.length % 6 ≠ 0 → parsePeers s = .error (.panic "index out of range")) := by
  match s with
  | [] => simp [parsePeers]
  | [b0] => simp [parsePeers]
  | [b0, b1] => simp [parsePeers]
  | [b0, b1, b2] => simp [parsePeers]
  | [b0, b1, b2, b3] => simp [parsePeers]
  | [b0, b1, b2, b3, b4] => simp [parsePeers]
  | b0 :: b1 :: b2 :: b3 :: b4 :: b5 :: rest =>
    have ih := c10_parsePeers_panics rest
    constructor
    · intro hl
      have hr : rest.length % 6 = 0 := by
        simp only [List.length_cons] at hl
        omega
      obtain ⟨ps, hps⟩ := ih.1 hr
      have hstep : parsePeers (b0 :: b1 :: b2 :: b3 :: b4 :: b5 :: rest)
          = .ok (Peer.mk (ipString b0 b1 b2 b3)
              (uint16ofInt (int16wrap (int16wrap ((b4 : Int) * 256) + (b5 : Int)))) :: ps) := by
        simp only [parsePeers]
        rw [hps, bindOk]
      exact ⟨_, hstep⟩
    · intro hl
      have hr : rest.length % 6 ≠ 0 := by
        simp only [List.length_cons] at hl ⊢
        omega
      have hm := ih.2 hr
      simp only [parsePeers]
      rw [hm, bindErr]

/-- Witness for C10: a 3-byte compact list panics; a 6-byte one parses
with a nil error. -/
theorem c10_parsePeers_panics_witness :
    parsePeers [1, 2, 3] = .error (.panic "index out of range") ∧
    ∃ ps, parsePeers [1, 2, 3, 4, 5, 6] = .ok ps :=
  ⟨(c10_parsePeers_panics [1, 2, 3]).2 (by decide),
    (c10_parsePeers_panics [1, 2, 3, 4, 5, 6]).1 (by decide)⟩

/-- Connection state relevant to `ExtensionID`: `extensionID *uint8` is
a nil pointer (`none`) until the extension handshake assigns it. -/
structure PeerConn where
  extensionID : Option Nat
  id : List Nat
deriving DecidableEq, Repr

/-- `ExtensionID` evaluates `*pc.extensionID` before the
`pc.extensionID != nil` guard in `return *pc.extensionID,
pc.extensionID != nil`, so a nil pointer is a runtime panic; when the
pointer is set, the second component is necessarily `true`. -/
def PeerConn.ExtensionID (pc : PeerConn) : Except GoErr (Nat × Bool) :=
  match pc.extensionID with
  | none => .error (.panic "invalid memory address or nil pointer dereference")
  | some v => .ok (v, true)

/-- The only assignment to `pc.extensionID` in `handshake`: guarded by
`reservedBytes != nil && reservedBytes[5]&0x10 != 0 &&
reserved[5]&0x10 != 0`.  `NewPeerConn` calls `handshake(infoHash,
nil)`, so the branch is never taken there. -/
def handshakeExtBranch (reservedBytes : Option (List Nat)) (respReserved : List Nat)
    (extID : Nat) : Option Nat :=
  match reservedBytes with
  | some rb =>
    if rb.getD 5 0 &&& 16 ≠ 0 ∧ respReserved.getD 5 0 &&& 16 ≠ 0 then some extID
    else none
  | none => none

/-- The `PeerConn` state produced by the plain `NewPeerConn`
(handshake with `reservedBytes = nil`): whatever the peer answered,
`extensionID` stays nil. -/
def NewPeerConn (respReserved : List Nat) (extID : Nat) (peerId : List Nat) : PeerConn :=
  { extensionID := handshakeExtBranch none respReserved extID, id := peerId }

/-- C9: on a connection created by the plain `NewPeerConn` the
extension pointer is nil, and `ExtensionID` dereferences it and panics
instead of returning `(0, false)`; in general a nil-pointer connection
can never observe the `(0, false)` return the guard suggests. -/
theorem c9_extensionID_nil_panics (respReserved : List Nat) (extID : Nat)
    (peerId : List Nat) :
    (NewPeerConn respReserved extID peerId).extensionID = none ∧
    (NewPeerConn respReserved extID peerId).ExtensionID
      = .error (.panic "invalid memory address or nil pointer dereference") ∧
    (∀ pc : PeerConn, pc.extensionID = none → pc.ExtensionID ≠ .ok (0, false)) := by
  refine ⟨rfl, rfl, ?_⟩
  intro pc hnil
  rw [PeerConn.ExtensionID, hnil]
  simp

/-- Witness for C9 at a concrete connection. -/
theorem c9_extensionID_nil_panics_witness :
    (NewPeerConn [0, 0, 0, 0, 0, 16, 0, 0] 3 []).ExtensionID
      = .error (.panic "invalid memory address or nil pointer dereference") ∧
    PeerConn.ExtensionID ⟨none, []⟩ ≠ .ok (0, false) :=
  ⟨(c9_extensionID_nil_panics [0, 0, 0, 0, 0, 16, 0, 0] 3 []).2.1,
    (c9_extensionID_nil_panics [] 0 []).2.2 ⟨none, []⟩ rfl⟩

/-!
## DownloadPiece block requests (peer_conn.go)

`DownloadPiece` first derives the effective piece length (the last
piece gets `Length % PieceLength`, or a full piece when that is zero),
then fills `blockReqs[i]` for `i < blockCount =
ceil(pieceLength / 16384)`.  The pipelined send loop sends exactly the
entries of `blockReqs`, in waves of `PipelineDepth`.  Lengths are
naturals: the spec requires `piece_length` and `length` positive, and
`math.Ceil(float64(a)/float64(b))` is exact integer ceiling division
for torrent-sized operands.  The `uint32` casts of the request fields
are kept as `% 2^32`.
-/

def BlockSize : Nat := 16384

/-- Integer ceiling division, the value of
`int(math.Ceil(float64(a) / float64(b)))`. -/
def ceilDiv (a b : Nat) : Nat :=
  (a + b - 1) / b

def pieceCount (fileLength pieceLength : Nat) : Nat :=
  ceilDiv fileLength pieceLength

/-- The `pieceLength` variable of `DownloadPiece` after the last-piece
adjustment. -/
def effPieceLength (fileLength pieceLength pieceIdx : Nat) : Nat :=
  if pieceIdx = pieceCount fileLength pieceLength - 1 then
    if fileLength % pieceLength = 0 then pieceLength else fileLength % pieceLength
  else pieceLength

/-- `RequestPayload`: 4-byte index, begin offset and block length. -/
structure RequestPayload where
  index : Nat
  begin : Nat
  length : Nat
deriving DecidableEq, Repr

/-- The `blockReqs` slice of `DownloadPiece`, or the
"piece index out of bounds" error. -/
def blockRequests (fileLength pieceLength pieceIdx : Nat) :
    Except GoErr (List RequestPayload) :=
  if pieceCount fileLength pieceLength ≤ pieceIdx then
    .error (.errMsg "piece index out of bounds")
  else
    let pl := effPieceLength fileLength pieceLength pieceIdx
    let blockCount := ceilDiv pl BlockSize
    .ok ((List.range blockCount).map (fun i =>
      { index := pieceIdx % 2 ^ 32,
        begin := (i * BlockSize) % 2 ^ 32,
        length := (if i = blockCount - 1 then
            if pl % BlockSize = 0 then BlockSize else pl % BlockSize
          else BlockSize) % 2 ^ 32 }))

theorem sum_map_range_const_last {n c L : Nat} (hn : 0 < n) :
    ((List.range n).map (fun i => if i = n - 1 then L else c)).sum = (n - 1) * c + L := by
  obtain ⟨m, rfl⟩ : ∃ m, n = m + 1 := ⟨n - 1, by omega⟩
  rw [List.range_succ, List.map_append, List.sum_append]
  have hconst : (List.range m).map (fun i => if i = m + 1 - 1 then L else c)
      = (List.range m).map (fun _ => c) := by
    apply List.map_congr_left
    intro i hi
    rw [List.mem_range] at hi
    rw [if_neg (by omega)]
  rw [hconst]
  simp [List.map_const', mul_comm]

/-- C4: for every valid piece index, `DownloadPiece` generates block
requests that partition the piece into consecutive `16384`-byte blocks
whose final block is the remainder (or a full block when the piece
divides evenly): offsets are consecutive multiples of `16384`, the
lengths sum to the piece length, every offset in `[0, piece_length)` is
covered by exactly one block, and the last piece of a file whose length
is not a multiple of the piece length uses `length % piece_length`. -/
theorem c4_blockRequests_partition (fileLength pieceLength pieceIdx : Nat)
    (hpl : 0 < pieceLength) (h32 : pieceLength ≤ 2 ^ 32)
    (hidx : pieceIdx < pieceCount fileLength pieceLength) :
    ∃ reqs, blockRequests fileLength pieceLength pieceIdx = .ok reqs ∧
      reqs ≠ [] ∧
      reqs.length = ceilDiv (effPieceLength fileLength pieceLength pieceIdx) BlockSize ∧
      (∀ i : Fin reqs.length, (reqs.get i).begin = i.val * BlockSize) ∧
      (∀ i : Fin reqs.length, i.val < reqs.length - 1 → (reqs.get i).length = BlockSize) ∧
      (∀ i : Fin reqs.length, i.val = reqs.length - 1 →
        (reqs.get i).length =
          if effPieceLength fileLength pieceLength pieceIdx % BlockSize = 0 then BlockSize
          else effPieceLength fileLength pieceLength pieceIdx % BlockSize) ∧
      (reqs.map RequestPayload.length).sum = effPieceLength fileLength pieceLength pieceIdx ∧
      (∀ off < effPieceLength fileLength pieceLength pieceIdx,
        ∃! i : Fin reqs.length,
          (reqs.get i).begin ≤ off ∧ off < (reqs.get i).begin + (reqs.get i).length) ∧
      (pieceIdx = pieceCount fileLength pieceLength - 1 →
        fileLength % pieceLength ≠ 0 →
        effPieceLength fileLength pieceLength pieceIdx = fileLength % pieceLength) := by
  have hPC : ¬(pieceCount fileLength pieceLength ≤ pieceIdx) := by omega
  have hmodlt : fileLength % pieceLength < pieceLength := Nat.mod_lt _ hpl
  have hpl_pos : 0 < effPieceLength fileLength pieceLength pieceIdx := by
    rw [effPieceLength]
    split
    · split
      · omega
      · omega
    · omega
  have hpl32 : effPieceLength fileLength pieceLength pieceIdx ≤ 2 ^ 32 := by
    rw [effPieceLength]
    split
    · split
      · omega
      · omega
    · omega
  generalize hpl_def : effPieceLength fileLength pieceLength pieceIdx = pl at *
  set n := ceilDiv pl BlockSize with hn_def
  set L := (if pl % BlockSize = 0 then BlockSize else pl % BlockSize) with hL_def
  have hn_pos : 0 < n := by
    rw [hn_def, ceilDiv]
    simp only [BlockSize]
    omega
  have hL_le : 0 < L ∧ L ≤ BlockSize := by
    rw [hL_def]
    simp only [BlockSize]
    split <;> omega
  have hsum : (n - 1) * BlockSize + L = pl := by
    rw [hn_def, hL_def, ceilDiv]
    simp only [BlockSize]
    split <;> omega
  have hnw1 : ∀ i < n, i * BlockSize % 2 ^ 32 = i * BlockSize := by
    intro i hi
    apply Nat.mod_eq_of_lt
    have : i * BlockSize ≤ (n - 1) * BlockSize := by
      apply Nat.mul_le_mul_right
      omega
    omega
  have hnwL : L % 2 ^ 32 = L := by
    apply Nat.mod_eq_of_lt
    simp only [BlockSize] at hL_le
    omega
  have hnwB : BlockSize % 2 ^ 32 = BlockSize := by simp [BlockSize]
  refine ⟨(List.range n).map (fun i =>
      { index := pieceIdx % 2 ^ 32,
        begin := (i * BlockSize) % 2 ^ 32,
        length := (if i = n - 1 then L else BlockSize) % 2 ^ 32 }), ?_, ?_, ?_, ?_, ?_, ?_, ?_, ?_, ?_⟩
  · rw [blockRequests, if_neg hPC]
    simp only [hpl_def, ← hn_def, ← hL_def]
  · have : n ≠ 0 := by omega
    simp [List.range_eq_nil, this]
  · simp [hn_def]
  · intro i
    have hi : i.val < n := by
      have := i.isLt
      simpa using this
    simp only [List.get_eq_getElem, List.getElem_map, List.getElem_range]
    exact hnw1 i.val hi
  · intro i hlt
    have hi : i.val < n := by
      have := i.isLt
      simpa using this
    have hne : i.val ≠ n - 1 := by
      simp only [List.length_map, List.length_range] at hlt
      omega
    simp only [List.get_eq_getElem, List.getElem_map, List.getElem_range, if_neg hne]
    exact hnwB
  · intro i heq
    have hi : i.val < n := by
      have := i.isLt
      simpa using this
    have heq' : i.val = n - 1 := by
      simp only [List.length_map, List.length_range] at heq
      omega
    simp only [List.get_eq_getElem, List.getElem_map, List.getElem_range, if_pos heq']
    rw [hnwL, hL_def]
  · rw [List.map_map]
    have hcomp : (RequestPayload.length ∘ fun i =>
        ({ index := pieceIdx % 2 ^ 32, begin := (i * BlockSize) % 2 ^ 32,
           length := (if i = n - 1 then L else BlockSize) % 2 ^ 32 } : RequestPayload))
        = fun i => (if i = n - 1 then L else BlockSize) % 2 ^ 32 := rfl
    rw [hcomp]
    have hfun : ∀ i ∈ List.range n,
        (if i = n - 1 then L else BlockSize) % 2 ^ 32
          = (if i = n - 1 then L else BlockSize) := by
      intro i _
      split
      · exact hnwL
      · exact hnwB
    rw [List.map_congr_left hfun, sum_map_range_const_last hn_pos]
    omega
  · intro off hoff
    simp only [BlockSize] at hsum hL_le
    have hoffn : off / 16384 < n := by
      have : off < n * 16384 := by omega
      omega
    have hlen : ((List.range n).map (fun i =>
        ({ index := pieceIdx % 2 ^ 32, begin := (i * BlockSize) % 2 ^ 32,
           length := (if i = n - 1 then L else BlockSize) % 2 ^ 32 } : RequestPayload))).length = n := by
      simp
    have hget : ∀ (i : Nat) (h : i < n),
        (((List.range n).map (fun i =>
          ({ index := pieceIdx % 2 ^ 32, begin := (i * BlockSize) % 2 ^ 32,
             length := (if i = n - 1 then L else BlockSize) % 2 ^ 32 } : RequestPayload))).get
          ⟨i, by omega⟩) =
          { index := pieceIdx % 2 ^ 32, begin := i * 16384,
            length := (if i = n - 1 then L else 16384) } := by
      intro i h
      simp only [List.get_eq_getElem, List.getElem_map, List.getElem_range]
      rw [hnw1 i h]
      congr 1
      split
      · exact hnwL
      · exact hnwB
    refine ⟨⟨off / 16384, by omega⟩, ⟨?_, ?_⟩, ?_⟩
    · rw [hget _ hoffn]
      simp only []
      omega
    · rw [hget _ hoffn]
      simp only []
      by_cases hc : off / 16384 = n - 1
      · rw [if_pos hc]
        have : off / 16384 * 16384 = (n - 1) * 16384 := by rw [hc]
        omega
      · rw [if_neg hc]
        omega
    · rintro ⟨j, hj⟩ ⟨hj1, hj2⟩
      have hjn : j < n := by omega
      rw [hget _ hjn] at hj1 hj2
      simp only [] at hj1 hj2
      have hlenle : (if j = n - 1 then L else 16384) ≤ 16384 := by
        split <;> omega
      apply Fin.ext
      simp only []
      omega
  · intro h1 h2
    rw [← hpl_def, effPieceLength, if_pos h1, if_neg h2]

/-- Witness for C4: a 3-piece file of 36864 bytes with 16384-byte
pieces; the last piece (index 2) is the 4096-byte remainder and is
requested as a single block. -/
theorem c4_blockRequests_partition_witness :
    (∃ reqs, blockRequests 36864 16384 2 = .ok reqs ∧
      (reqs.map RequestPayload.length).sum = effPieceLength 36864 16384 2) ∧
    blockRequests 36864 16384 2 = .ok [{ index := 2, begin := 0, length := 4096 }] := by
  constructor
  · obtain ⟨reqs, h1, _, _, _, _, _, h7, _, _⟩ :=
      c4_blockRequests_partition 36864 16384 2 (by decide) (by decide) (by decide)
    exact ⟨reqs, h1, h7⟩
  · rfl

/-!
## SHA-1 (crypto/sha1), on byte lists

A direct implementation of FIPS 180 SHA-1 over `List Nat` bytes, used
by the metainfo model for the info-hash and by `verifyPiece`.  32-bit
words are naturals reduced modulo `2^32`.
-/

def w32m (n : Nat) : Nat := n % 4294967296

def rotl32 (b n : Nat) : Nat :=
  w32m ((n <<< b) ||| (n >>> (32 - b)))

def sha1F (t b c d : Nat) : Nat :=
  if t < 20 then (b &&& c) ||| ((b ^^^ 4294967295) &&& d)
  else if t < 40 then b ^^^ c ^^^ d
  else if t < 60 then (b &&& c) ||| (b &&& d) ||| (c &&& d)
  else b ^^^ c ^^^ d

def sha1K (t : Nat) : Nat :=
  if t < 20 then 1518500249
  else if t < 40 then 1859775393
  else if t < 60 then 2400959708
  else 3395469782

/-- Big-endian 32-bit words from bytes. -/
def wordsBE : List Nat → List Nat
  | a :: b :: c :: d :: rest => (((a * 256 + b) * 256 + c) * 256 + d) :: wordsBE rest
  | _ => []

/-- Message-schedule extension, collecting words newest-first. -/
def sha1Extend : Nat → List Nat → List Nat
  | 0, acc => acc.reverse
  | k + 1, acc =>
    sha1Extend k
      (rotl32 1 ((acc.getD 2 0) ^^^ (acc.getD 7 0) ^^^ (acc.getD 13 0) ^^^ (acc.getD 15 0))
        :: acc)

def sha1Schedule (block : List Nat) : List Nat :=
  sha1Extend 64 (wordsBE block).reverse

def sha1Rounds : List Nat → Nat → Nat × Nat × Nat × Nat × Nat → Nat × Nat × Nat × Nat × Nat
  | [], _, st => st
  | w :: ws, t, (a, b, c, d, e) =>
    sha1Rounds ws (t + 1)
      (w32m (rotl32 5 a + sha1F t b c d + e + sha1K t + w), a, rotl32 30 b, c, d)

def sha1Blocks : List (List Nat) → Nat × Nat × Nat × Nat × Nat → Nat × Nat × Nat × Nat × Nat
  | [], h => h
  | blk :: rest, (h0, h1, h2, h3, h4) =>
    match sha1Rounds (sha1Schedule blk) 0 (h0, h1, h2, h3, h4) with
    | (a, b, c, d, e) =>
      sha1Blocks rest
        (w32m (h0 + a), w32m (h1 + b), w32m (h2 + c), w32m (h3 + d), w32m (h4 + e))

def toBlocksAux : Nat → List Nat → List (List Nat)
  | 0, _ => []
  | _, [] => []
  | f + 1, l => l.take 64 :: toBlocksAux f (l.drop 64)

def beBytes8 (n : Nat) : List Nat :=
  [(n >>> 56) % 256, (n >>> 48) % 256, (n >>> 40) % 256, (n >>> 32) % 256,
   (n >>> 24) % 256, (n >>> 16) % 256, (n >>> 8) % 256, n % 256]

def wordBE4 (w : Nat) : List Nat :=
  [(w >>> 24) % 256, (w >>> 16) % 256, (w >>> 8) % 256, w % 256]

/-- `0x80`, zeros to 56 mod 64, then the 64-bit big-endian bit length. -/
def sha1Pad (msg : List Nat) : List Nat :=
  msg ++ 128 :: List.replicate ((120 - (msg.length + 1) % 64) % 64) 0
    ++ beBytes8 (8 * msg.length)

/-- The 20-byte SHA-1 digest of a byte list. -/
def sha1 (msg : List Nat) : List Nat :=
  let padded := sha1Pad msg
  match sha1Blocks (toBlocksAux (padded.length + 1) padded)
      (1732584193, 4023233417, 2562383102, 271733878, 3285377520) with
  | (h0, h1, h2, h3, h4) =>
    wordBE4 h0 ++ wordBE4 h1 ++ wordBE4 h2 ++ wordBE4 h3 ++ wordBE4 h4

/-- Lowercase hex rendering (Go `fmt` `%x` / `hex.EncodeToString`). -/
def hexDigit (n : Nat) : Nat :=
  if n < 10 then 48 + n else 87 + n

def hexEncode : List Nat → List Nat
  | [] => []
  | b :: t => hexDigit (b / 16) :: hexDigit (b % 16) :: hexEncode t

set_option maxRecDepth 40000

example : hexEncode (sha1 (bytes "abc")) = bytes "a9993e364706816aba3e25717850c26c9cd0d89d" := by
  decide
example : hexEncode (sha1 []) = bytes "da39a3ee5e6b4b0d3255bfef95601890afd80709" := by
  decide
example : hexEncode (sha1 (bytes "The quick brown fox jumps over the lazy dog"))
    = bytes "2fd4e1c67a2d28fced849ee1bb76e7391b93eb12" := by
  decide

/-!
## Metainfo model (pkg/metainfo, pkg/util)
-/

/-- Go map read `m[key]`. -/
def lookupB (m : List (List Nat × BVal)) (k : List Nat) : Option BVal :=
  match m with
  | [] => none
  | (k', v) :: rest => if k' = k then some v else lookupB rest k

/-- `util.GetStringFromMap`: the value under `key` if it is a string. -/
def GetStringFromMap (m : List (List Nat × BVal)) (key : String) :
    Except GoErr (List Nat) :=
  match lookupB m (bytes key) with
  | some (.str s) => .ok s
  | _ => .error (.errMsg ("invalid " ++ key))

/-- `util.GetStringOrBytesFromMap`: accepts `string` or `[]byte`; a
decoded bencode value is always a `string`, and the `[]byte` arm
returns the same bytes, so on the decoded-value domain this coincides
with `GetStringFromMap`. -/
def GetStringOrBytesFromMap (m : List (List Nat × BVal)) (key : String) :
    Except GoErr (List Nat) :=
  match lookupB m (bytes key) with
  | some (.str s) => .ok s
  | _ => .error (.errMsg ("invalid " ++ key))

/-- `util.GetIntFromMap`. -/
def GetIntFromMap (m : List (List Nat × BVal)) (key : String) :
    Except GoErr Int :=
  match lookupB m (bytes key) with
  | some (.int n) => .ok n
  | _ => .error (.errMsg ("invalid " ++ key))

structure MetaInfo where
  Name : List Nat
  Pieces : List Nat
  Hash : List Nat
  PieceHashes : List (List Nat)
  Length : Int
  PieceLength : Int
deriving DecidableEq, Repr

/-- `pieceHashes`: slice the blob into 20-byte chunks, hex-encoded.
The loop `for i := 0; i < len(pieces); i += 20 { pieces[i : i+20] }`
slices past the end when fewer than 20 bytes remain — a runtime
panic.  The loop consumes 20 bytes per step; the fuel parameter (the
input length, always sufficient) only makes that termination
explicit. -/
def pieceHashesGoAux : Nat → List Nat → Except GoErr (List (List Nat))
  | _, [] => .ok []
  | 0, _ => .error (.errMsg "out of fuel")
  | fuel + 1, pieces =>
    if pieces.length < 20 then .error (.panic "slice bounds out of range")
    else do
      let ph ← pieceHashesGoAux fuel (pieces.drop 20)
      .ok (hexEncode (pieces.take 20) :: ph)

def pieceHashesGo (pieces : List Nat) : Except GoErr (List (List Nat)) :=
  pieceHashesGoAux pieces.length pieces

/-- The fixed four-entry map literal of `MetaInfo.Bencode`, in the
textual order of the source. -/
def MetaInfo.infoQuad (mi : MetaInfo) : List (List Nat × BVal) :=
  [(bytes "length", .int mi.Length), (bytes "name", .str mi.Name),
   (bytes "piece length", .int mi.PieceLength), (bytes "pieces", .str mi.Pieces)]

/-- `MetaInfo.Bencode`: re-encode exactly the four fields `length`,
`name`, `piece length`, `pieces` through `bencode.BencodeVal` (the
exported twin of `bencodeVal`).  On this four-entry map the encoder
cannot fail. -/
def MetaInfo.Bencode (mi : MetaInfo) : Except GoErr (List Nat) :=
  .ok (bencodeVal (.dict mi.infoQuad))

/-- `MetaInfo.Sha1Sum`: SHA-1 of the bencoded info dictionary. -/
def MetaInfo.Sha1Sum (mi : MetaInfo) : Except GoErr (List Nat) := do
  let b ← mi.Bencode
  .ok (sha1 b)

/-- `NewMetaInfoFromMap`: pull the four required fields (errors from
the getters propagate), then derive `PieceHashes` (which may panic)
and the info hash. -/
def NewMetaInfoFromMap (m : List (List Nat × BVal)) : Except GoErr MetaInfo := do
  let name ← GetStringFromMap m "name"
  let pieces ← GetStringOrBytesFromMap m "pieces"
  let length ← GetIntFromMap m "length"
  let pieceLength ← GetIntFromMap m "piece length"
  let ph ← pieceHashesGo pieces
  let mi := MetaInfo.mk name pieces [] ph length pieceLength
  let hash ← mi.Sha1Sum
  .ok { mi with Hash := hash }

structure MetaFile where
  Announce : List Nat
  Info : MetaInfo
deriving DecidableEq, Repr

/-- `NewMetaFileFromMap`: `announce` must be a string, `info` a
mapping; `info` is then handed to `NewMetaInfoFromMap`. -/
def NewMetaFileFromMap (m : List (List Nat × BVal)) : Except GoErr MetaFile :=
  match lookupB m (bytes "announce") with
  | some (.str announce) =>
    match lookupB m (bytes "info") with
    | some (.dict info) => do
      let mi ← NewMetaInfoFromMap info
      .ok { Announce := announce, Info := mi }
    | _ => .error (.errMsg "invalid info")
  | _ => .error (.errMsg "invalid announce URL")

theorem bind_ok_iff {ε α β : Type} {x : Except ε α} {f : α → Except ε β} {b : β} :
    (x >>= f) = .ok b ↔ ∃ a, x = .ok a ∧ f a = .ok b := by
  cases x with
  | ok a => simp [bindOk]
  | error e => simp [bindErr]

theorem lookupB_eq_none_iff {m : List (List Nat × BVal)} {k : List Nat} :
    lookupB m k = none ↔ k ∉ m.map Prod.fst := by
  induction m with
  | nil => simp [lookupB]
  | cons p rest ih =>
    obtain ⟨k', v'⟩ := p
    by_cases hk : k' = k
    · subst hk
      simp [lookupB]
    · simp [lookupB, if_neg hk, ih, Ne.symm hk]

theorem lookupB_eq_some_iff {m : List (List Nat × BVal)}
    (hnd : (m.map Prod.fst).Nodup) {k : List Nat} {v : BVal} :
    lookupB m k = some v ↔ (k, v) ∈ m := by
  induction m with
  | nil => simp [lookupB]
  | cons p rest ih =>
    obtain ⟨k', v'⟩ := p
    simp only [List.map_cons, List.nodup_cons] at hnd
    by_cases hk : k' = k
    · subst hk
      simp only [lookupB, if_pos rfl, List.mem_cons]
      constructor
      · rintro h
        injection h with h
        subst h
        left
        rfl
      · rintro (h | h)
        · injection h with h1 h2
          subst h2
          rfl
        · exact absurd (List.mem_map_of_mem Prod.fst h) hnd.1
    · simp only [lookupB, if_neg hk, List.mem_cons, ih hnd.2]
      constructor
      · intro h
        exact Or.inr h
      · rintro (h | h)
        · injection h with h1 h2
          exact absurd h1.symm hk
        · exact h

theorem lookupB_perm {m m' : List (List Nat × BVal)} (hp : List.Perm m m')
    (hnd : (m.map Prod.fst).Nodup) (k : List Nat) :
    lookupB m k = lookupB m' k := by
  have hnd' : (m'.map Prod.fst).Nodup := (hp.map Prod.fst).nodup_iff.mp hnd
  cases h : lookupB m k with
  | some v =>
    symm
    rw [lookupB_eq_some_iff hnd']
    exact hp.mem_iff.mp ((lookupB_eq_some_iff hnd).mp h)
  | none =>
    symm
    rw [lookupB_eq_none_iff]
    have := lookupB_eq_none_iff.mp h
    intro hmem
    exact this (((hp.map Prod.fst).mem_iff).mpr hmem)

theorem pieceHashesGoAux_spec (fuel : Nat) (p : List Nat) (hf : p.length ≤ fuel) :
    (p.length % 20 = 0 → ∃ hs, pieceHashesGoAux fuel p = .ok hs) ∧
    (p.length % 20 ≠ 0 →
      pieceHashesGoAux fuel p = .error (.panic "slice bounds out of range")) := by
  induction fuel generalizing p with
  | zero =>
    match p with
    | [] => simp [pieceHashesGoAux]
    | c :: t => simp at hf
  | succ f ih =>
    match p with
    | [] => simp [pieceHashesGoAux]
    | c :: t =>
      by_cases h1 : (c :: t).length < 20
      · constructor
        · intro hmod
          have : (c :: t).length ≠ 0 := by simp
          omega
        · intro _
          rw [pieceHashesGoAux, if_pos h1]
          simp
      · have hdl : ((c :: t).drop 20).length = (c :: t).length - 20 := by simp
        have ihd := ih ((c :: t).drop 20) (by omega)
        constructor
        · intro hmod
          obtain ⟨hs, hhs⟩ := ihd.1 (by omega)
          refine ⟨hexEncode ((c :: t).take 20) :: hs, ?_⟩
          rw [pieceHashesGoAux, if_neg h1, hhs, bindOk]
          simp
        · intro hmod
          rw [pieceHashesGoAux, if_neg h1, ihd.2 (by omega), bindErr]
          simp

theorem pieceHashesGo_spec (p : List Nat) :
    (p.length % 20 = 0 → ∃ hs, pieceHashesGo p = .ok hs) ∧
    (p.length % 20 ≠ 0 →
      pieceHashesGo p = .error (.panic "slice bounds out of range")) :=
  pieceHashesGoAux_spec p.length p (Nat.le_refl _)

theorem sha1Sum_eval (mi : MetaInfo) :
    mi.Sha1Sum = .ok (sha1 (bencodeVal (.dict mi.infoQuad))) := rfl

theorem NewMetaInfoFromMap_ok_inv {m : List (List Nat × BVal)} {mi : MetaInfo}
    (h : NewMetaInfoFromMap m = .ok mi) :
    ∃ name pieces length pieceLength ph,
      GetStringFromMap m "name" = .ok name ∧
      GetStringOrBytesFromMap m "pieces" = .ok pieces ∧
      GetIntFromMap m "length" = .ok length ∧
      GetIntFromMap m "piece length" = .ok pieceLength ∧
      pieceHashesGo pieces = .ok ph ∧
      mi = { Name := name, Pieces := pieces,
             Hash := sha1 (bencodeVal (.dict
               (MetaInfo.mk name pieces [] ph length pieceLength).infoQuad)),
             PieceHashes := ph, Length := length, PieceLength := pieceLength } := by
  rw [NewMetaInfoFromMap] at h
  rw [bind_ok_iff] at h
  obtain ⟨name, hname, h⟩ := h
  rw [bind_ok_iff] at h
  obtain ⟨pieces, hpieces, h⟩ := h
  rw [bind_ok_iff] at h
  obtain ⟨length, hlength, h⟩ := h
  rw [bind_ok_iff] at h
  obtain ⟨pieceLength, hpl, h⟩ := h
  rw [bind_ok_iff] at h
  obtain ⟨ph, hph, h⟩ := h
  simp only [MetaInfo.Sha1Sum, MetaInfo.Bencode, bindOk] at h
  injection h with h
  exact ⟨name, pieces, length, pieceLength, ph, hname, hpieces, hlength, hpl, hph, h.symm⟩

/-- C1 counterexample input: an info dictionary with all four required
keys plus an extra `private` key. -/
def c1InfoDictExtra : List (List Nat × BVal) :=
  [(bytes "length", .int 1), (bytes "name", .str (bytes "a")),
   (bytes "piece length", .int 1),
   (bytes "pieces", .str (bytes "11111111111111111111")),
   (bytes "private", .int 1)]

/-- C1 counterexample: `MetaInfo.Bencode` re-encodes only the fixed
four-key subset `{length, name, piece length, pieces}`, so for an info
dictionary carrying any further key the derived hash is the SHA-1 of
the four-key dictionary, not of the canonical bencoding of the full
info dictionary: parsing succeeds, yet the hash differs. -/
theorem c1_infoHash_counterexample :
    (NewMetaInfoFromMap c1InfoDictExtra).toOption.map MetaInfo.Hash ≠ none ∧
    (NewMetaInfoFromMap c1InfoDictExtra).toOption.map MetaInfo.Hash
      ≠ some (sha1 (bencodeVal (.dict c1InfoDictExtra))) := by
  constructor
  · decide
  · decide

/-- C1 amended: the derived info hash is the SHA-1 of the canonical
bencoding of the four-entry dictionary `{length, name, piece length,
pieces}` built from the parsed fields; this equals the SHA-1 of the
canonical bencoding of the original info dictionary exactly when that
dictionary consists of these four entries (in any order), and the hash
is stable across two independent parses of the same logical dictionary
(any permutation, no duplicate keys). -/
theorem c1_infoHash_amended (m : List (List Nat × BVal)) (mi : MetaInfo)
    (h : NewMetaInfoFromMap m = .ok mi) :
    mi.Hash = sha1 (bencodeVal (.dict mi.infoQuad)) ∧
    (List.Perm m mi.infoQuad → mi.Hash = sha1 (bencodeVal (.dict m))) ∧
    (∀ m' mi', List.Perm m m' → (m.map Prod.fst).Nodup →
      NewMetaInfoFromMap m' = .ok mi' → mi'.Hash = mi.Hash) := by
  obtain ⟨name, pieces, length, pieceLength, ph, h1, h2, h3, h4, h5, hmi⟩ :=
    NewMetaInfoFromMap_ok_inv h
  refine ⟨by rw [hmi]; dsimp only [MetaInfo.infoQuad], ?_, ?_⟩
  · intro hperm
    have hkeys : mi.infoQuad.map Prod.fst
        = [bytes "length", bytes "name", bytes "piece length", bytes "pieces"] := rfl
    have hndq : (mi.infoQuad.map Prod.fst).Nodup := by
      rw [hkeys]
      decide
    have hnd : (m.map Prod.fst).Nodup := ((hperm.map Prod.fst).nodup_iff).mpr hndq
    have heq : bencodeDict m = bencodeDict mi.infoQuad := bencodeDict_perm hperm hnd
    rw [show bencodeVal (.dict m) = bencodeDict m from rfl, heq]
    rw [show bencodeDict mi.infoQuad = bencodeVal (.dict mi.infoQuad) from rfl]
    rw [hmi]
    dsimp only [MetaInfo.infoQuad]
  · intro m' mi' hperm hnd h'
    have hlk : ∀ k, lookupB m' k = lookupB m k :=
      fun k => (lookupB_perm hperm hnd k).symm
    have hsame : NewMetaInfoFromMap m' = NewMetaInfoFromMap m := by
      simp only [NewMetaInfoFromMap, GetStringFromMap, GetStringOrBytesFromMap,
        GetIntFromMap, hlk]
    rw [hsame, h] at h'
    injection h' with h'
    rw [← h']

/-- C1 witness input: an info dictionary with exactly the four keys. -/
def c1InfoDict : List (List Nat × BVal) :=
  [(bytes "length", .int 1), (bytes "name", .str (bytes "a")),
   (bytes "piece length", .int 1),
   (bytes "pieces", .str (bytes "11111111111111111111"))]

def c1MetaInfo : MetaInfo :=
  match NewMetaInfoFromMap c1InfoDict with
  | .ok mi => mi
  | .error _ => MetaInfo.mk [] [] [] [] 0 0

/-- Witness for C1 amended at the four-key dictionary: the derived
hash is the SHA-1 of the canonical bencoding of the info dictionary
itself. -/
theorem c1_infoHash_amended_witness :
    c1MetaInfo.Hash = sha1 (bencodeVal (.dict c1InfoDict)) :=
  (c1_infoHash_amended c1InfoDict c1MetaInfo (by rfl)).2.1 (List.Perm.refl _)

theorem GetStringFromMap_error_eq {m : List (List Nat × BVal)} {k : String} {e : GoErr}
    (h : GetStringFromMap m k = .error e) : e = .errMsg ("invalid " ++ k) := by
  rw [GetStringFromMap] at h
  rcases hl : lookupB m (bytes k) with _ | v
  · rw [hl] at h
    injection h with h
    exact h.symm
  · rcases v with s | n | l | d <;> rw [hl] at h <;> simp_all

theorem GetStringOrBytesFromMap_error_eq {m : List (List Nat × BVal)} {k : String}
    {e : GoErr} (h : GetStringOrBytesFromMap m k = .error e) :
    e = .errMsg ("invalid " ++ k) := by
  rw [GetStringOrBytesFromMap] at h
  rcases hl : lookupB m (bytes k) with _ | v
  · rw [hl] at h
    injection h with h
    exact h.symm
  · rcases v with s | n | l | d <;> rw [hl] at h <;> simp_all

theorem GetIntFromMap_error_eq {m : List (List Nat × BVal)} {k : String} {e : GoErr}
    (h : GetIntFromMap m k = .error e) : e = .errMsg ("invalid " ++ k) := by
  rw [GetIntFromMap] at h
  rcases hl : lookupB m (bytes k) with _ | v
  · rw [hl] at h
    injection h with h
    exact h.symm
  · rcases v with s | n | l | d <;> rw [hl] at h <;> simp_all

/-- C5 counterexample input: all four keys present and well-typed, but
`pieces` is 10 bytes — not a multiple of 20. -/
def c5ShortPieces : List (List Nat × BVal) :=
  [(bytes "length", .int 1), (bytes "name", .str (bytes "a")),
   (bytes "piece length", .int 1),
   (bytes "pieces", .str (bytes "0123456789"))]

/-- C5 counterexample: with `len(pieces) % 20 ≠ 0` the constructor does
not fail with a `MalformedMetainfo` error — `pieceHashes` slices past
the end of the blob and panics. -/
theorem c5_malformed_pieces_counterexample :
    NewMetaInfoFromMap c5ShortPieces = .error (.panic "slice bounds out of range") := by
  rfl

/-- C5 amended: a missing or wrongly-typed required key (`name`,
`pieces`, `length`, `piece length` in `NewMetaInfoFromMap`; `announce`,
`info` in `NewMetaFileFromMap`) yields a `MalformedMetainfo`-style
`error` return; but when the keys are well-typed and `len(pieces)` is
not a multiple of 20, the constructor panics in `pieceHashes` (slice
out of range) instead of returning an error; with `len(pieces) % 20 =
0` construction succeeds. -/
theorem c5_metainfo_validation (m : List (List Nat × BVal)) :
    (((∃ e, GetStringFromMap m "name" = .error e) ∨
      (∃ e, GetStringOrBytesFromMap m "pieces" = .error e) ∨
      (∃ e, GetIntFromMap m "length" = .error e) ∨
      (∃ e, GetIntFromMap m "piece length" = .error e)) →
      ∃ key, NewMetaInfoFromMap m = .error (.errMsg ("invalid " ++ key))) ∧
    (∀ name pieces length pieceLength,
      GetStringFromMap m "name" = .ok name →
      GetStringOrBytesFromMap m "pieces" = .ok pieces →
      GetIntFromMap m "length" = .ok length →
      GetIntFromMap m "piece length" = .ok pieceLength →
      (pieces.length % 20 = 0 → ∃ mi, NewMetaInfoFromMap m = .ok mi) ∧
      (pieces.length % 20 ≠ 0 →
        NewMetaInfoFromMap m = .error (.panic "slice bounds out of range"))) ∧
    ((∀ s, lookupB m (bytes "announce") ≠ some (.str s)) →
      NewMetaFileFromMap m = .error (.errMsg "invalid announce URL")) ∧
    (∀ s, lookupB m (bytes "announce") = some (.str s) →
      (∀ d, lookupB m (bytes "info") ≠ some (.dict d)) →
      NewMetaFileFromMap m = .error (.errMsg "invalid info")) := by
  refine ⟨?_, ?_, ?_, ?_⟩
  · intro hbad
    cases hname : GetStringFromMap m "name" with
    | error e =>
      refine ⟨"name", ?_⟩
      rw [NewMetaInfoFromMap, hname, bindErr, GetStringFromMap_error_eq hname]
    | ok name =>
      cases hpieces : GetStringOrBytesFromMap m "pieces" with
      | error e =>
        refine ⟨"pieces", ?_⟩
        rw [NewMetaInfoFromMap, hname, bindOk, hpieces, bindErr,
          GetStringOrBytesFromMap_error_eq hpieces]
      | ok pieces =>
        cases hlength : GetIntFromMap m "length" with
        | error e =>
          refine ⟨"length", ?_⟩
          rw [NewMetaInfoFromMap, hname, bindOk, hpieces, bindOk, hlength, bindErr,
            GetIntFromMap_error_eq hlength]
        | ok length =>
          cases hpl : GetIntFromMap m "piece length" with
          | error e =>
            refine ⟨"piece length", ?_⟩
            rw [NewMetaInfoFromMap, hname, bindOk, hpieces, bindOk, hlength, bindOk,
              hpl, bindErr, GetIntFromMap_error_eq hpl]
          | ok pieceLength =>
            rcases hbad with ⟨e, he⟩ | ⟨e, he⟩ | ⟨e, he⟩ | ⟨e, he⟩ <;> simp_all
  · intro name pieces length pieceLength hname hpieces hlength hpl
    constructor
    · intro hmod
      obtain ⟨hs, hph⟩ := (pieceHashesGo_spec pieces).1 hmod
      refine ⟨⟨name, pieces,
        sha1 (bencodeVal (.dict (MetaInfo.mk name pieces [] hs length pieceLength).infoQuad)),
        hs, length, pieceLength⟩, ?_⟩
      rw [NewMetaInfoFromMap, hname, bindOk, hpieces, bindOk, hlength, bindOk,
        hpl, bindOk, hph, bindOk]
      rfl
    · intro hmod
      rw [NewMetaInfoFromMap, hname, bindOk, hpieces, bindOk, hlength, bindOk,
        hpl, bindOk, (pieceHashesGo_spec pieces).2 hmod, bindErr]
  · intro hann
    rw [NewMetaFileFromMap]
    rcases hl : lookupB m (bytes "announce") with _ | v
    · rfl
    · rcases v with s | n | l | d
      · exact absurd hl (hann s)
      · rfl
      · rfl
      · rfl
  · intro s hs hinfo
    rw [NewMetaFileFromMap, hs]
    rcases hl : lookupB m (bytes "info") with _ | v
    · rfl
    · rcases v with s' | n | l | d
      · rfl
      · rfl
      · rfl
      · exact absurd hl (hinfo d)

/-- Witness for C5 amended: a map without `name` fails with an
`invalid`-key error; a well-formed four-key map with 20-byte pieces
parses; the 10-byte-pieces map panics; a map without `announce` fails
as a metafile. -/
def c5FourKeyDict : List (List Nat × BVal) :=
  [(bytes "length", .int 1), (bytes "name", .str (bytes "a")),
   (bytes "piece length", .int 1),
   (bytes "pieces", .str (bytes "11111111111111111111"))]

theorem c5_metainfo_validation_witness :
    (∃ key, NewMetaInfoFromMap [] = .error (.errMsg ("invalid " ++ key))) ∧
    (∃ mi, NewMetaInfoFromMap c5FourKeyDict = .ok mi) ∧
    NewMetaInfoFromMap c5ShortPieces = .error (.panic "slice bounds out of range") ∧
    NewMetaFileFromMap [] = .error (.errMsg "invalid announce URL") := by
  refine ⟨(c5_metainfo_validation []).1 (Or.inl ⟨_, rfl⟩), ?_, ?_, ?_⟩
  · exact ((c5_metainfo_validation c5FourKeyDict).2.1 _ _ _ _ rfl rfl rfl rfl).1 (by decide)
  · exact ((c5_metainfo_validation c5ShortPieces).2.1 _ _ _ _ rfl rfl rfl rfl).2 (by decide)
  · exact (c5_metainfo_validation []).2.2.1 (by intro s h; simp [lookupB] at h)

/-!
## Magnet link parser (magnet.go, hex-decoding version)
-/

/-- `strings.HasPrefix s pre`. -/
def startsWithB (s pre : List Nat) : Bool :=
  match s, pre with
  | _, [] => true
  | [], _ :: _ => false
  | c :: s', p :: ps => c = p && startsWithB s' ps

/-- `strings.Split(s, "&")` (`&` is byte 38). -/
def splitAmp : List Nat → List (List Nat)
  | [] => [[]]
  | c :: rest =>
    match splitAmp rest with
    | [] => []
    | h :: t => if c = 38 then [] :: h :: t else (c :: h) :: t

/-- The recognition loop of `parseMagnetLink`: the last `xt=urn:btih:`,
`dn=`, `tr=` part wins, each with its literal prefix stripped. -/
def magnetScan (parts : List (List Nat)) : List Nat × List Nat × List Nat :=
  parts.foldl (fun acc part =>
    if startsWithB part (bytes "xt=urn:btih:") then (part.drop 12, acc.2.1, acc.2.2)
    else if startsWithB part (bytes "dn=") then (acc.1, part.drop 3, acc.2.2)
    else if startsWithB part (bytes "tr=") then (acc.1, acc.2.1, part.drop 3)
    else acc) ([], [], [])

/-- Hex digit value (`encoding/hex` and `net/url` both accept upper and
lower case). -/
def hexVal (c : Nat) : Option Nat :=
  if 48 ≤ c ∧ c ≤ 57 then some (c - 48)
  else if 97 ≤ c ∧ c ≤ 102 then some (c - 87)
  else if 65 ≤ c ∧ c ≤ 70 then some (c - 55)
  else none

/-- `url.QueryUnescape`: `%XY` percent escapes and `+` as space;
malformed escapes are an error. -/
def queryUnescape : List Nat → Except GoErr (List Nat)
  | [] => .ok []
  | 37 :: a :: b :: rest =>
    match hexVal a, hexVal b with
    | some x, some y => do
      let r ← queryUnescape rest
      .ok ((16 * x + y) :: r)
    | _, _ => .error (.errMsg "invalid URL escape")
  | [37] => .error (.errMsg "invalid URL escape")
  | [37, _] => .error (.errMsg "invalid URL escape")
  | 43 :: rest => do
    let r ← queryUnescape rest
    .ok (32 :: r)
  | c :: rest => do
    let r ← queryUnescape rest
    .ok (c :: r)

/-- `hex.DecodeString`: pairs of hex digits; odd length or a non-hex
digit is an error.  No length other than evenness is required. -/
def hexDecode : List Nat → Except GoErr (List Nat)
  | [] => .ok []
  | [_] => .error (.errMsg "odd length hex string")
  | a :: b :: rest =>
    match hexVal a, hexVal b with
    | some x, some y => do
      let r ← hexDecode rest
      .ok ((16 * x + y) :: r)
    | _, _ => .error (.errMsg "invalid byte")

/-- `parseMagnetLink`: requires the `magnet:?` scheme, scans `&`-parts
for `xt`/`dn`/`tr`, rejects any of the three being absent (empty),
percent-decodes the tracker URL and hex-decodes the info hash.  The
decoded hash's length is never checked. -/
def parseMagnetLink (magnetLink : List Nat) :
    Except GoErr (List Nat × List Nat × List Nat) :=
  if startsWithB magnetLink (bytes "magnet:?") = false then
    .error (.errMsg "invalid magnet link")
  else
    let scan := magnetScan (splitAmp (magnetLink.drop 8))
    if scan.1 = [] ∨ scan.2.1 = [] ∨ scan.2.2 = [] then
      .error (.errMsg "invalid magnet link")
    else do
      let trackerURL ← queryUnescape scan.2.2
      let infoHashHex ← hexDecode scan.1
      .ok (infoHashHex, scan.2.1, trackerURL)

example :
    parseMagnetLink (bytes
      "magnet:?xt=urn:btih:ad42ce8109f54c99613ce38f9b4d87e70f24a165&dn=magnet1.gif&tr=http%3A%2F%2Fbittorrent-test-tracker.codecrafters.io%2Fannounce")
      = .ok ([0xad, 0x42, 0xce, 0x81, 0x09, 0xf5, 0x4c, 0x99, 0x61, 0x3c,
              0xe3, 0x8f, 0x9b, 0x4d, 0x87, 0xe7, 0x0f, 0x24, 0xa1, 0x65],
             bytes "magnet1.gif",
             bytes "http://bittorrent-test-tracker.codecrafters.io/announce") := by
  rfl

theorem startsWithB_cons_ne {c p : Nat} {s ps : List Nat} (h : c ≠ p) :
    startsWithB (c :: s) (p :: ps) = false := by
  simp [startsWithB, h]

theorem startsWithB_append (p s : List Nat) : startsWithB (p ++ s) p = true := by
  induction p with
  | nil => simp [startsWithB]
  | cons c t ih => simp [startsWithB, ih]

theorem splitAmp_ne_nil (b : List Nat) : splitAmp b ≠ [] := by
  induction b with
  | nil => simp [splitAmp]
  | cons c t ih =>
    rw [splitAmp]
    rcases hb : splitAmp t with _ | ⟨h', t'⟩
    · exact absurd hb ih
    · dsimp only
      split <;> simp

theorem splitAmp_no_amp {a : List Nat} (h : ∀ c ∈ a, c ≠ 38) :
    splitAmp a = [a] := by
  induction a with
  | nil => rfl
  | cons c t ih =>
    have hc : c ≠ 38 := h c (by simp)
    rw [splitAmp, ih (fun x hx => h x (by simp [hx]))]
    simp [hc]

theorem splitAmp_append {a : List Nat} (h : ∀ c ∈ a, c ≠ 38) (b : List Nat) :
    splitAmp (a ++ 38 :: b) = a :: splitAmp b := by
  induction a with
  | nil =>
    rw [List.nil_append, splitAmp]
    rcases hb : splitAmp b with _ | ⟨h', t'⟩
    · exact absurd hb (splitAmp_ne_nil b)
    · simp
  | cons c t ih =>
    have hc : c ≠ 38 := h c (by simp)
    rw [List.cons_append, splitAmp, ih (fun x hx => h x (by simp [hx]))]
    simp [hc]

/-- C7 counterexample: `parseMagnetLink` never checks the length of
the hex info-hash — an `xt` value of 4 hex digits is accepted and
yields a 2-byte "info-hash", where the claim requires `HEX40` decoding
to exactly 20 bytes. -/
theorem c7_magnet_counterexample :
    parseMagnetLink (bytes "magnet:?xt=urn:btih:abcd&dn=f&tr=t")
      = .ok ([171, 205], bytes "f", bytes "t") ∧
    ([171, 205] : List Nat).length ≠ 20 := by
  exact ⟨rfl, by decide⟩

/-- C7 amended: parsing fails when the input does not begin with
`magnet:?`, or when any of `xt`, `dn`, `tr` is missing or empty; the
`xt` value is only required to be valid hex of even length — its
length is not checked — and on success the parser returns the
hex-decoded info-hash (whatever its length), the display name, and the
percent-decoded tracker URL. -/
theorem c7_magnet_parse_behavior (s : List Nat) :
    (startsWithB s (bytes "magnet:?") = false →
      parseMagnetLink s = .error (.errMsg "invalid magnet link")) ∧
    (∀ tail, s = bytes "magnet:?" ++ tail →
      ((magnetScan (splitAmp tail)).1 = [] ∨ (magnetScan (splitAmp tail)).2.1 = [] ∨
          (magnetScan (splitAmp tail)).2.2 = [] →
        parseMagnetLink s = .error (.errMsg "invalid magnet link")) ∧
      (∀ xtv dnv trv trDec ihDec,
        tail = bytes "xt=urn:btih:" ++ xtv ++ bytes "&dn=" ++ dnv ++ bytes "&tr=" ++ trv →
        (∀ c ∈ xtv, c ≠ 38) → (∀ c ∈ dnv, c ≠ 38) → (∀ c ∈ trv, c ≠ 38) →
        xtv ≠ [] → dnv ≠ [] → trv ≠ [] →
        queryUnescape trv = .ok trDec →
        hexDecode xtv = .ok ihDec →
        parseMagnetLink s = .ok (ihDec, dnv, trDec))) := by
  constructor
  · intro h
    rw [parseMagnetLink, if_pos h]
  · intro tail htail
    subst htail
    have hsw : startsWithB (bytes "magnet:?" ++ tail) (bytes "magnet:?") = true :=
      startsWithB_append _ _
    have hdrop : (bytes "magnet:?" ++ tail).drop 8 = tail := by
      rw [show (8 : Nat) = (bytes "magnet:?").length from rfl, List.drop_left]
    constructor
    · intro hempty
      rw [parseMagnetLink, if_neg (by simp [hsw]), hdrop, if_pos hempty]
    · intro xtv dnv trv trDec ihDec htail hxt hdn htr hxne hdne htne hq hh
      have hsplit : splitAmp tail
          = [bytes "xt=urn:btih:" ++ xtv, bytes "dn=" ++ dnv, bytes "tr=" ++ trv] := by
        have e1 : tail = (bytes "xt=urn:btih:" ++ xtv)
            ++ 38 :: ((bytes "dn=" ++ dnv) ++ 38 :: (bytes "tr=" ++ trv)) := by
          rw [htail]
          rw [show bytes "&dn=" = 38 :: bytes "dn=" from rfl,
            show bytes "&tr=" = 38 :: bytes "tr=" from rfl]
          simp [List.append_assoc]
        have hno1 : ∀ c ∈ bytes "xt=urn:btih:" ++ xtv, c ≠ 38 := by
          intro c hc
          rcases List.mem_append.mp hc with hc | hc
          · exact (by decide : ∀ c ∈ bytes "xt=urn:btih:", c ≠ 38) c hc
          · exact hxt c hc
        have hno2 : ∀ c ∈ bytes "dn=" ++ dnv, c ≠ 38 := by
          intro c hc
          rcases List.mem_append.mp hc with hc | hc
          · exact (by decide : ∀ c ∈ bytes "dn=", c ≠ 38) c hc
          · exact hdn c hc
        have hno3 : ∀ c ∈ bytes "tr=" ++ trv, c ≠ 38 := by
          intro c hc
          rcases List.mem_append.mp hc with hc | hc
          · exact (by decide : ∀ c ∈ bytes "tr=", c ≠ 38) c hc
          · exact htr c hc
        rw [e1, splitAmp_append hno1, splitAmp_append hno2, splitAmp_no_amp hno3]
      have hd1 : startsWithB (bytes "dn=" ++ dnv) (bytes "xt=urn:btih:") = false := by
        rw [show bytes "dn=" ++ dnv = 100 :: (bytes "n=" ++ dnv) from rfl,
          show bytes "xt=urn:btih:" = 120 :: bytes "t=urn:btih:" from rfl]
        exact startsWithB_cons_ne (by decide)
      have ht1 : startsWithB (bytes "tr=" ++ trv) (bytes "xt=urn:btih:") = false := by
        rw [show bytes "tr=" ++ trv = 116 :: (bytes "r=" ++ trv) from rfl,
          show bytes "xt=urn:btih:" = 120 :: bytes "t=urn:btih:" from rfl]
        exact startsWithB_cons_ne (by decide)
      have ht2 : startsWithB (bytes "tr=" ++ trv) (bytes "dn=") = false := by
        rw [show bytes "tr=" ++ trv = 116 :: (bytes "r=" ++ trv) from rfl,
          show bytes "dn=" = 100 :: bytes "n=" from rfl]
        exact startsWithB_cons_ne (by decide)
      have hdx : (bytes "xt=urn:btih:" ++ xtv).drop 12 = xtv := by
        rw [show (12 : Nat) = (bytes "xt=urn:btih:").length from rfl, List.drop_left]
      have hdd : (bytes "dn=" ++ dnv).drop 3 = dnv := by
        rw [show (3 : Nat) = (bytes "dn=").length from rfl, List.drop_left]
      have hdt : (bytes "tr=" ++ trv).drop 3 = trv := by
        rw [show (3 : Nat) = (bytes "tr=").length from rfl, List.drop_left]
      have hscan : magnetScan (splitAmp tail) = (xtv, dnv, trv) := by
        rw [hsplit, magnetScan]
        simp only [List.foldl_cons, List.foldl_nil, startsWithB_append, hd1, ht1, ht2,
          hdx, hdd, hdt]
        simp
      rw [parseMagnetLink, if_neg (by simp [hsw]), hdrop]
      simp only [hscan]
      rw [if_neg (by simp [hxne, hdne, htne]), hq, bindOk, hh, bindOk]

/-- Witness for C7 amended: a full well-formed magnet link parses into
its 20-byte hash, name and percent-decoded tracker URL; the hypotheses
are discharged at this concrete input. -/
theorem c7_magnet_parse_behavior_witness :
    parseMagnetLink (bytes "magnet:?xt=urn:btih:00ff00ff00ff00ff00ff00ff00ff00ff00ff00ff&dn=a&tr=http%3A%2F%2Ft")
      = .ok ([0, 255, 0, 255, 0, 255, 0, 255, 0, 255, 0, 255, 0, 255, 0, 255, 0, 255, 0, 255],
             bytes "a", bytes "http://t") :=
  ((c7_magnet_parse_behavior _).2 _ (by rfl)).2
    (bytes "00ff00ff00ff00ff00ff00ff00ff00ff00ff00ff") (bytes "a") (bytes "http%3A%2F%2Ft")
    (bytes "http://t")
    [0, 255, 0, 255, 0, 255, 0, 255, 0, 255, 0, 255, 0, 255, 0, 255, 0, 255, 0, 255]
    (by rfl) (by decide) (by decide) (by decide) (by decide) (by decide) (by decide)
    (by rfl) (by rfl)

/-- C3 counterexample: a 4097-byte string does not survive the
decode∘encode roundtrip. `decodeBencode` reads byte strings with
`reader.Peek(length)`; for `length` beyond the 4096-byte
`bufio.NewReader` buffer, `Peek` returns the buffered 4096 bytes with
`ErrBufferFull`, the code keeps that truncated slice because `Discard`
then succeeds, and the decoder returns the first 4096 bytes with a nil
error — a different, shorter value than the one encoded. -/
theorem c3_roundtrip_counterexample :
    decodeBencode (bencodeVal (.str (List.replicate 4097 97)))
      = .ok (.str (List.replicate 4096 97)) ∧
    BVal.str (List.replicate 4096 97) ≠ BVal.str (List.replicate 4097 97) := by
  constructor
  · have hb : ∀ s : List Nat, bencodeVal (.str s) = bencodeString s := by
      intro s
      simp [bencodeVal, canonV, bencodePlain]
    rw [hb, decodeBencode_long (by rw [List.length_replicate]; norm_num)
        (by rw [List.length_replicate]; norm_num), List.take_replicate,
      show (min 4096 4097 : Nat) = 4096 from rfl]
  · intro h
    injection h with h2
    have h3 := congrArg List.length h2
    rw [List.length_replicate, List.length_replicate] at h3
    norm_num at h3
